import Mathlib

/-!
Verification development for the angular_change_detection repository.

The repository ships educational markdown plus thin Angular demo components.
Its specification document singles out one piece of genuine systems design,
the reactive signal core (Signal / Computed / Effect / Scheduler), which the
repository does not implement anywhere in its sources: the spec describes it
as a conceptual model extracted from the documentation.  Sections 1 to 4
below therefore model that core from the spec and settle the claims about it
against the model.  Section 5 embeds the two demo component methods that the
remaining claims are about, directly from the TypeScript sources.
-/

namespace ReactiveCore

/-- Modelled from the spec: the single error of the error taxonomy exercised
by the reactive core claims.  Spec section 7: a CyclicDependencyError is
raised when evaluating a Computed re-enters its own evaluation before
completion; section 4.4 says the flush iteration bound reuses the same
cyclic-dependency detection, so the bounded-evaluation guard reports the
same error. -/
inductive RError where
  | cyclicDependency
deriving DecidableEq, Repr

/-- Modelled from the spec: the configurable equality policy of a Signal
(spec 4.1: default is identity/structural equality; callers may override).
The override modelled here is the policy that treats every write as a
change. -/
inductive EqPolicy where
  | structural
  | notifyAlways
deriving DecidableEq, Repr

/-- Does the policy consider the new value equal to the old one (in which
case the write must not propagate)? -/
def EqPolicy.eqv : EqPolicy → Int → Int → Bool
  | .structural, a, b => a == b
  | .notifyAlways, _, _ => false

/-- Modelled from the spec: a dependency-source identifier, either a Signal
or a Computed (the two kinds of reactive cell that can be read). -/
inductive Src where
  | s (i : Nat)
  | c (i : Nat)
deriving DecidableEq, Repr

/-- Binary operators usable inside derivations and effect bodies. -/
inductive BOp where
  | add
  | mul
deriving DecidableEq, Repr

def BOp.app : BOp → Int → Int → Int
  | .add, a, b => a + b
  | .mul, a, b => a * b

/-- Modelled from the spec: the body of a derivation function or of an
effect closure, as a first-order expression over reads of Signals and
Computeds.  The spec requires derivations to be pure with respect to
tracked cells (spec 4.2), which this language enforces by construction. -/
inductive Expr where
  | const (n : Int)
  | readSig (i : Nat)
  | readComp (i : Nat)
  | bin (op : BOp) (a b : Expr)
deriving DecidableEq, Repr

/-- Modelled from the spec: a Signal owns a current value and its
configured equality policy (spec 3 and 4.1).  Dependent readers are held
by the consumers (handle-based weak back-references, spec design note 3),
so the dependent set is derived, not stored. -/
structure Signal where
  value : Int
  policy : EqPolicy
deriving DecidableEq, Repr

/-- Modelled from the spec: a Computed owns a derivation body, a cached
value (possibly stale), a dirty flag, the dependency set recorded during
its last evaluation, and a count of derivation invocations (spec 3 and
4.2).  A Computed is created dirty and is only evaluated on read. -/
structure Computed where
  expr : Expr
  cache : Int
  dirty : Bool
  deps : List Src
  runs : Nat
deriving DecidableEq, Repr

/-- Modelled from the spec: an Effect owns its side-effecting closure
(modelled as an expression whose value is appended to a log, followed by a
list of signal writes), the dependency set recorded during its last run, a
disposed flag, the log of observed values, and a run counter (spec 3 and
4.3). -/
structure Effect where
  expr : Expr
  writes : List (Nat × Int)
  deps : List Src
  disposed : Bool
  log : List Int
  runs : Nat
deriving DecidableEq, Repr

/-- Modelled from the spec: the whole reactive graph plus the Scheduler
state: the queue of effect re-runs for the current batch, the pending
queue receiving enqueues issued from within a flush (spec 4.4 batching
boundary), and the in-flush flag. -/
structure RState where
  signals : List Signal
  computeds : List Computed
  effects : List Effect
  queue : List Nat
  pending : List Nat
  inFlush : Bool
deriving DecidableEq, Repr

def RState.sigVal (st : RState) (i : Nat) : Int :=
  ((st.signals[i]?).map Signal.value).getD 0

def RState.cexpr (st : RState) (i : Nat) : Expr :=
  ((st.computeds[i]?).map Computed.expr).getD (.const 0)

def RState.cacheOf (st : RState) (i : Nat) : Int :=
  ((st.computeds[i]?).map Computed.cache).getD 0

def RState.dirtyOf (st : RState) (i : Nat) : Bool :=
  ((st.computeds[i]?).map Computed.dirty).getD false

def RState.depsOf (st : RState) (i : Nat) : List Src :=
  ((st.computeds[i]?).map Computed.deps).getD []

def RState.crunsOf (st : RState) (i : Nat) : Nat :=
  ((st.computeds[i]?).map Computed.runs).getD 0

def RState.setComp (st : RState) (i : Nat) (co : Computed) : RState :=
  { st with computeds := st.computeds.set i co }

def RState.effExpr (st : RState) (k : Nat) : Expr :=
  ((st.effects[k]?).map Effect.expr).getD (.const 0)

def RState.effWrites (st : RState) (k : Nat) : List (Nat × Int) :=
  ((st.effects[k]?).map Effect.writes).getD []

def RState.effDeps (st : RState) (k : Nat) : List Src :=
  ((st.effects[k]?).map Effect.deps).getD []

def RState.effDisposed (st : RState) (k : Nat) : Bool :=
  ((st.effects[k]?).map Effect.disposed).getD true

def RState.effLog (st : RState) (k : Nat) : List Int :=
  ((st.effects[k]?).map Effect.log).getD []

def RState.effRuns (st : RState) (k : Nat) : Nat :=
  ((st.effects[k]?).map Effect.runs).getD 0

/-- A Computed is clean when its dirty flag is false. -/
def RState.isClean (st : RState) (i : Nat) : Prop := st.dirtyOf i = false

instance (st : RState) (i : Nat) : Decidable (st.isClean i) := by
  unfold RState.isClean; infer_instance

/-- The set of cells an expression reads.  Derivations and effect bodies
have no control flow, so the cells read during an evaluation are exactly
the cells occurring in the body; the recorded dependency set rebuilt on
every evaluation (spec 4.2) therefore always equals this set, which is
proved below rather than assumed. -/
def staticReads : Expr → List Src
  | .const _ => []
  | .readSig i => [Src.s i]
  | .readComp i => [Src.c i]
  | .bin _ a b => (staticReads a ++ staticReads b).dedup

/-- Modelled from the spec: evaluation with dependency tracking.  The
evaluation context (spec design note 1) is the explicit stack of Computed
ids currently being evaluated; reading a Computed that is already on the
stack is the re-entrancy guard of spec 4.2 and raises the cyclic
dependency error.  Fuel bounds the recursion depth; exhausting it reports
the same error (spec 4.4: the bounded-iteration guard reuses the cyclic
dependency detection).  Reading a dirty Computed re-runs its derivation,
records the fresh dependency set, caches the result and clears the dirty
flag; reading a clean one returns the cache (spec 4.2, pull-based
laziness). -/
def evalStep
    (evalLower : List Nat → RState → Expr → Except RError (Int × List Src × RState)) :
    List Nat → RState → Expr → Except RError (Int × List Src × RState)
  | _, st, .const n => .ok (n, [], st)
  | _, st, .readSig i => .ok (st.sigVal i, [Src.s i], st)
  | stack, st, .readComp i =>
    if i ∈ stack then .error .cyclicDependency
    else
      match st.computeds[i]? with
      | none => .ok (0, [Src.c i], st)
      | some co =>
        if co.dirty then
          match evalLower (i :: stack) st co.expr with
          | .error e => .error e
          | .ok (v, ds, st1) =>
            .ok (v, [Src.c i],
              st1.setComp i { ((st1.computeds[i]?).getD co) with
                cache := v, dirty := false, deps := ds,
                runs := ((st1.computeds[i]?).getD co).runs + 1 })
        else .ok (co.cache, [Src.c i], st)
  | stack, st, .bin op a b =>
    match evalStep evalLower stack st a with
    | .error e => .error e
    | .ok (va, dsa, st1) =>
      match evalStep evalLower stack st1 b with
      | .error e => .error e
      | .ok (vb, dsb, st2) => .ok (op.app va vb, (dsa ++ dsb).dedup, st2)

def evalE : Nat → List Nat → RState → Expr → Except RError (Int × List Src × RState)
  | 0, _, _, _ => .error .cyclicDependency
  | fuel + 1, stack, st, e => evalStep (evalE fuel) stack st e

/-- Enough fuel for any evaluation over the state's graph: one unit per
Computed plus one. -/
def fuelOf (st : RState) : Nat := st.computeds.length + 1

/-- Modelled from the spec: top-level read of a Computed (spec 4.2),
outside any evaluation context. -/
def readComputed (st : RState) (i : Nat) : Except RError (Int × RState) :=
  match evalE (fuelOf st) [] st (.readComp i) with
  | .error e => .error e
  | .ok (v, _, st1) => .ok (v, st1)

/-- Does the dependency list mention a Computed belonging to the set R? -/
def hitsSet (R : Finset Nat) (ds : List Src) : Bool :=
  ds.any fun d => match d with
    | Src.c m => decide (m ∈ R)
    | Src.s _ => false

/-- One saturation step of dirty-marking: add every Computed one of whose
recorded dependencies is already marked. -/
def markStep (st : RState) (R : Finset Nat) : Finset Nat :=
  R ∪ (Finset.range st.computeds.length).filter fun j => hitsSet R (st.depsOf j)

/-- Iterated saturation. -/
def markIter (st : RState) : Nat → Finset Nat → Finset Nat
  | 0, R => R
  | n + 1, R => markIter st n (markStep st R)

/-- The Computeds whose recorded dependency set mentions the given source
directly. -/
def directComps (st : RState) (src : Src) : Finset Nat :=
  (Finset.range st.computeds.length).filter fun j => decide (src ∈ st.depsOf j)

/-- Modelled from the spec: the set of Computeds a write to the given
source must mark dirty.  Dirtiness propagates from an upstream write
through the recorded dependency edges (spec 4.2), so the direct dependents
are saturated through Computed-to-Computed edges. -/
def markedSet (st : RState) (src : Src) : Finset Nat :=
  markIter st (st.computeds.length + 1) (directComps st src)

/-- Mark dirty every Computed whose index (starting at the given offset)
lies in the set. -/
def markList (M : Finset Nat) : Nat → List Computed → List Computed
  | _, [] => []
  | j, co :: cs =>
    (if j ∈ M then { co with dirty := true } else co) :: markList M (j + 1) cs

/-- The non-disposed Effects that depend on the written source directly or
through a marked Computed. -/
def affectedEffects (st : RState) (src : Src) (M : Finset Nat) : List Nat :=
  (List.range st.effects.length).filter fun k =>
    match st.effects[k]? with
    | none => false
    | some ef => !ef.disposed && (decide (src ∈ ef.deps) || hitsSet M ef.deps)

/-- Idempotent enqueue (spec 4.4): adding an already-queued entity is a
no-op. -/
def enqueue1 (q : List Nat) (k : Nat) : List Nat :=
  if k ∈ q then q else q ++ [k]

def enqueueAll (q : List Nat) (ks : List Nat) : List Nat :=
  ks.foldl enqueue1 q

/-- Modelled from the spec: writing a Signal (spec 4.1).  If the new value
is equal to the current one under the configured policy the write is a
complete no-op.  Otherwise the value is replaced, every transitively
dependent Computed is marked dirty and every affected non-disposed Effect
is enqueued: on the current queue normally, on the pending queue when the
write is issued from within a flush (spec 4.4 batching boundary). -/
def writeSig (st : RState) (i : Nat) (v : Int) : RState :=
  match st.signals[i]? with
  | none => st
  | some sg =>
    if sg.policy.eqv sg.value v then st
    else
      let M := markedSet st (Src.s i)
      let ks := affectedEffects st (Src.s i) M
      let sigs2 := st.signals.set i { sg with value := v }
      let comps2 := markList M 0 st.computeds
      let st2 : RState := { st with signals := sigs2, computeds := comps2 }
      if st.inFlush then { st2 with pending := enqueueAll st.pending ks }
      else { st2 with queue := enqueueAll st.queue ks }

def applyWrites (st : RState) : List (Nat × Int) → RState
  | [] => st
  | (i, v) :: ws => applyWrites (writeSig st i v) ws

/-- Modelled from the spec: running one Effect (spec 4.3): evaluate its
body with dependency tracking, append the observed value to its log,
record the fresh dependency set, then perform the writes its closure
issues.  A disposed Effect never runs; an evaluation error aborts only
this run (spec 7 propagation policy). -/
def runEffect (st : RState) (k : Nat) : RState :=
  match st.effects[k]? with
  | none => st
  | some ef =>
    if ef.disposed then st
    else
      match evalE (fuelOf st) [] st ef.expr with
      | .error _ => st
      | .ok (v, ds, st1) =>
        let ef1 : Effect := { ef with log := ef.log ++ [v], runs := ef.runs + 1, deps := ds }
        let st2 : RState := { st1 with effects := st1.effects.set k ef1 }
        applyWrites st2 ef.writes

/-- Modelled from the spec: flushing the Scheduler (spec 4.4).  The queue
is cleared atomically, the snapshot is processed exactly once per entry,
writes issued during the flush land on the pending queue, and the pending
queue becomes the queue of the next batch. -/
def flush (st : RState) : RState :=
  let q := st.queue
  let st1 : RState := { st with queue := [], inFlush := true }
  let st2 := q.foldl runEffect st1
  { st2 with inFlush := false, queue := st2.pending, pending := [] }

/-- Modelled from the spec: disposing an Effect (spec 4.3): it is removed
from every dependency set (its recorded dependencies are dropped, so no
Signal notifies it again) and marked disposed, after which it never runs
again.  Idempotent. -/
def disposeEffect (st : RState) (k : Nat) : RState :=
  match st.effects[k]? with
  | none => st
  | some ef =>
    { st with effects := st.effects.set k { ef with disposed := true, deps := [] } }

/-- Modelled from the spec: createSignal (spec 6). -/
def createSignal (st : RState) (v : Int) (p : EqPolicy) : RState × Nat :=
  ({ st with signals := st.signals ++ [⟨v, p⟩] }, st.signals.length)

/-- Modelled from the spec: createComputed (spec 6).  Created dirty with a
placeholder cache; the first read performs the first evaluation (spec 4.2
laziness). -/
def createComputed (st : RState) (e : Expr) : RState × Nat :=
  ({ st with computeds := st.computeds ++ [⟨e, 0, true, [], 0⟩] }, st.computeds.length)

/-- Modelled from the spec: createEffect (spec 4.3): the body runs once
synchronously at creation to establish the initial dependency set. -/
def createEffect (st : RState) (e : Expr) (ws : List (Nat × Int)) : RState × Nat :=
  let k := st.effects.length
  let st1 : RState := { st with effects := st.effects ++ [⟨e, ws, [], false, [], 0⟩] }
  (runEffect st1 k, k)

/-- The operations a consumer of the core can perform (spec 6). -/
inductive Op where
  | write (i : Nat) (v : Int)
  | doFlush
  | readC (i : Nat)
  | dispose (k : Nat)

def applyOp (st : RState) : Op → RState
  | .write i v => writeSig st i v
  | .doFlush => flush st
  | .readC i =>
    match readComputed st i with
    | .error _ => st
    | .ok (_, st1) => st1
  | .dispose k => disposeEffect st k

def applyOps (st : RState) (ops : List Op) : RState := ops.foldl applyOp st

/-- Re-evaluating an expression against the current values of the cells it
reads: Signals at their current value, Computeds at their cached value.
This is the evaluation the cache-correctness invariant of spec 3 compares
a cache against. -/
def shallowEval (st : RState) : Expr → Int
  | .const n => n
  | .readSig i => st.sigVal i
  | .readComp i => st.cacheOf i
  | .bin op a b => op.app (shallowEval st a) (shallowEval st b)

/-- A source is clean when it is a Signal or a clean Computed. -/
def srcClean (st : RState) (d : Src) : Prop :=
  match d with
  | Src.s _ => True
  | Src.c m => st.isClean m

instance (st : RState) (d : Src) : Decidable (srcClean st d) := by
  unfold srcClean; cases d <;> infer_instance

/-- Cache-correctness invariant (spec 3, Computed): every clean Computed's
cache equals re-evaluating its derivation against the current values of
its dependencies, and its recorded dependency set is exactly the set of
cells its derivation reads. -/
def Inv (st : RState) : Prop :=
  ∀ j, j < st.computeds.length → st.isClean j →
    st.cacheOf j = shallowEval st (st.cexpr j) ∧
    st.depsOf j ⊆ staticReads (st.cexpr j) ∧
    staticReads (st.cexpr j) ⊆ st.depsOf j

instance (st : RState) : Decidable (Inv st) := by
  unfold Inv; infer_instance

/-- Every cell a clean Computed reads is itself clean: a clean cache never
sits downstream of a stale one. -/
def CleanClosed (st : RState) : Prop :=
  ∀ j, j < st.computeds.length → st.isClean j →
    ∀ d ∈ staticReads (st.cexpr j), srcClean st d

instance (st : RState) : Decidable (CleanClosed st) := by
  unfold CleanClosed; infer_instance

/-- The well-formedness the operations preserve. -/
def WF (st : RState) : Prop := Inv st ∧ CleanClosed st

instance (st : RState) : Decidable (WF st) := by
  unfold WF; infer_instance

/-- Transitive reads between Computeds, through the syntactic read sets of
their derivations. -/
inductive Reach (st : RState) : Nat → Nat → Prop where
  | base {i j : Nat} : Src.c j ∈ staticReads (st.cexpr i) → Reach st i j
  | trans {i m j : Nat} : Src.c m ∈ staticReads (st.cexpr i) → Reach st m j →
      Reach st i j

/-- An expression reaches a Computed: it reads it directly or reads some
Computed that transitively reads it. -/
def EReach (st : RState) (e : Expr) (j : Nat) : Prop :=
  Src.c j ∈ staticReads e ∨ ∃ m, Src.c m ∈ staticReads e ∧ Reach st m j

/-- The rank constraint on one read source: a read Computed must rank
strictly below the reader. -/
def srcRankLt (rank : Nat → Nat) (j : Nat) : Src → Prop
  | Src.s _ => True
  | Src.c m => rank m < rank j

instance (rank : Nat → Nat) (j : Nat) (d : Src) : Decidable (srcRankLt rank j d) := by
  unfold srcRankLt; cases d <;> infer_instance

/-- A rank function witnessing that the Computed read graph is acyclic:
every Computed's rank strictly exceeds the rank of every Computed its
derivation reads. -/
def TopoRank (st : RState) (rank : Nat → Nat) : Prop :=
  ∀ j, j < st.computeds.length →
    ∀ d ∈ staticReads (st.cexpr j), srcRankLt rank j d

instance (st : RState) (rank : Nat → Nat) : Decidable (TopoRank st rank) := by
  unfold TopoRank; infer_instance

/-! Basic lemmas about the state getters. -/

lemma setComp_signals (st : RState) (i : Nat) (co : Computed) :
    (st.setComp i co).signals = st.signals := rfl

lemma setComp_effects (st : RState) (i : Nat) (co : Computed) :
    (st.setComp i co).effects = st.effects := rfl

lemma setComp_queue (st : RState) (i : Nat) (co : Computed) :
    (st.setComp i co).queue = st.queue := rfl

lemma setComp_pending (st : RState) (i : Nat) (co : Computed) :
    (st.setComp i co).pending = st.pending := rfl

lemma setComp_inFlush (st : RState) (i : Nat) (co : Computed) :
    (st.setComp i co).inFlush = st.inFlush := rfl

lemma setComp_len (st : RState) (i : Nat) (co : Computed) :
    (st.setComp i co).computeds.length = st.computeds.length := by
  simp [RState.setComp]

lemma setComp_get_ne (st : RState) (i : Nat) (co : Computed) {j : Nat} (h : i ≠ j) :
    (st.setComp i co).computeds[j]? = st.computeds[j]? := by
  simp [RState.setComp, List.getElem?_set_ne h]

lemma setComp_get_self (st : RState) (i : Nat) (co : Computed)
    (h : i < st.computeds.length) :
    (st.setComp i co).computeds[i]? = some co := by
  simp [RState.setComp, List.getElem?_set_self h]

lemma cexpr_setComp_ne (st : RState) (i : Nat) (co : Computed) {j : Nat} (h : i ≠ j) :
    (st.setComp i co).cexpr j = st.cexpr j := by
  simp [RState.cexpr, setComp_get_ne st i co h]

lemma cacheOf_setComp_ne (st : RState) (i : Nat) (co : Computed) {j : Nat} (h : i ≠ j) :
    (st.setComp i co).cacheOf j = st.cacheOf j := by
  simp [RState.cacheOf, setComp_get_ne st i co h]

lemma dirtyOf_setComp_ne (st : RState) (i : Nat) (co : Computed) {j : Nat} (h : i ≠ j) :
    (st.setComp i co).dirtyOf j = st.dirtyOf j := by
  simp [RState.dirtyOf, setComp_get_ne st i co h]

lemma depsOf_setComp_ne (st : RState) (i : Nat) (co : Computed) {j : Nat} (h : i ≠ j) :
    (st.setComp i co).depsOf j = st.depsOf j := by
  simp [RState.depsOf, setComp_get_ne st i co h]

lemma cexpr_setComp_self (st : RState) (i : Nat) (co : Computed)
    (h : i < st.computeds.length) : (st.setComp i co).cexpr i = co.expr := by
  simp [RState.cexpr, setComp_get_self st i co h]

lemma cacheOf_setComp_self (st : RState) (i : Nat) (co : Computed)
    (h : i < st.computeds.length) : (st.setComp i co).cacheOf i = co.cache := by
  simp [RState.cacheOf, setComp_get_self st i co h]

lemma dirtyOf_setComp_self (st : RState) (i : Nat) (co : Computed)
    (h : i < st.computeds.length) : (st.setComp i co).dirtyOf i = co.dirty := by
  simp [RState.dirtyOf, setComp_get_self st i co h]

lemma depsOf_setComp_self (st : RState) (i : Nat) (co : Computed)
    (h : i < st.computeds.length) : (st.setComp i co).depsOf i = co.deps := by
  simp [RState.depsOf, setComp_get_self st i co h]

lemma lt_of_mem_cexpr_reads {st : RState} {i : Nat} {d : Src}
    (h : d ∈ staticReads (st.cexpr i)) : i < st.computeds.length := by
  by_contra hge
  have hnone : st.computeds[i]? = none := by
    simp [List.getElem?_eq_none, Nat.le_of_not_lt hge]
  simp [RState.cexpr, hnone, staticReads] at h

lemma mem_staticReads_bin {op : BOp} {a b : Expr} {d : Src} :
    d ∈ staticReads (.bin op a b) ↔ d ∈ staticReads a ∨ d ∈ staticReads b := by
  simp [staticReads, List.mem_dedup, List.mem_append]

/-- The shallow evaluation of an expression depends only on the values of
the cells it reads. -/
lemma shallow_congr {st st' : RState} :
    ∀ {e : Expr},
      (∀ i, Src.s i ∈ staticReads e → st'.sigVal i = st.sigVal i) →
      (∀ m, Src.c m ∈ staticReads e → st'.cacheOf m = st.cacheOf m) →
      shallowEval st' e = shallowEval st e
  | .const _, _, _ => rfl
  | .readSig i, hs, _ => by simpa [shallowEval] using hs i (by simp [staticReads])
  | .readComp m, _, hc => by simpa [shallowEval] using hc m (by simp [staticReads])
  | .bin op a b, hs, hc => by
    have ha := @shallow_congr st st' a
      (fun i hi => hs i (mem_staticReads_bin.2 (Or.inl hi)))
      (fun m hm => hc m (mem_staticReads_bin.2 (Or.inl hm)))
    have hb := @shallow_congr st st' b
      (fun i hi => hs i (mem_staticReads_bin.2 (Or.inr hi)))
      (fun m hm => hc m (mem_staticReads_bin.2 (Or.inr hm)))
    simp [shallowEval, ha, hb]

/-- Reach only looks at the derivation bodies. -/
lemma reach_transfer {st st' : RState} (hx : ∀ j, st'.cexpr j = st.cexpr j)
    {i j : Nat} (h : Reach st i j) : Reach st' i j := by
  induction h with
  | base hm => exact Reach.base (by rw [hx]; exact hm)
  | trans hm _ ih => exact Reach.trans (by rw [hx]; exact hm) ih

lemma ereach_transfer {st st' : RState} (hx : ∀ j, st'.cexpr j = st.cexpr j)
    {e : Expr} {j : Nat} (h : EReach st e j) : EReach st' e j := by
  rcases h with h | ⟨m, hm, hr⟩
  · exact Or.inl h
  · exact Or.inr ⟨m, hm, reach_transfer hx hr⟩

/-- In a clean-closed state, everything a clean Computed transitively
reads is clean. -/
lemma cc_reach {st : RState} (hcc : CleanClosed st) {i j : Nat}
    (hi : st.isClean i) (h : Reach st i j) : st.isClean j := by
  induction h with
  | base hm =>
    have := hcc _ (lt_of_mem_cexpr_reads hm) hi _ hm
    simpa [srcClean] using this
  | trans hm _ ih =>
    have := hcc _ (lt_of_mem_cexpr_reads hm) hi _ hm
    exact ih (by simpa [srcClean] using this)

lemma sigVal_congr {st st' : RState} (h : st'.signals = st.signals) (i : Nat) :
    st'.sigVal i = st.sigVal i := by
  simp [RState.sigVal, h]

lemma cexpr_some {st : RState} {i : Nat} {co : Computed}
    (h : st.computeds[i]? = some co) : st.cexpr i = co.expr := by
  simp [RState.cexpr, h]

lemma cacheOf_some {st : RState} {i : Nat} {co : Computed}
    (h : st.computeds[i]? = some co) : st.cacheOf i = co.cache := by
  simp [RState.cacheOf, h]

lemma dirtyOf_some {st : RState} {i : Nat} {co : Computed}
    (h : st.computeds[i]? = some co) : st.dirtyOf i = co.dirty := by
  simp [RState.dirtyOf, h]

lemma depsOf_some {st : RState} {i : Nat} {co : Computed}
    (h : st.computeds[i]? = some co) : st.depsOf i = co.deps := by
  simp [RState.depsOf, h]

lemma cacheOf_none {st : RState} {i : Nat}
    (h : st.computeds[i]? = none) : st.cacheOf i = 0 := by
  simp [RState.cacheOf, h]

lemma dirtyOf_none {st : RState} {i : Nat}
    (h : st.computeds[i]? = none) : st.dirtyOf i = false := by
  simp [RState.dirtyOf, h]

lemma cexpr_none {st : RState} {i : Nat}
    (h : st.computeds[i]? = none) : st.cexpr i = .const 0 := by
  simp [RState.cexpr, h]

lemma lt_of_getComp_some {st : RState} {i : Nat} {co : Computed}
    (h : st.computeds[i]? = some co) : i < st.computeds.length := by
  by_contra hge
  rw [List.getElem?_eq_none (Nat.le_of_not_lt hge)] at h
  exact Option.noConfusion h

lemma reach_lt {st : RState} {i j : Nat} (h : Reach st i j) :
    i < st.computeds.length := by
  cases h with
  | base hm => exact lt_of_mem_cexpr_reads hm
  | trans hm _ => exact lt_of_mem_cexpr_reads hm

/-- Everything a successful tracked evaluation guarantees about the result
and the state it leaves behind. -/
structure EvalOK (stack : List Nat) (st : RState) (e : Expr) (v : Int)
    (ds : List Src) (st1 : RState) : Prop where
  sigs : st1.signals = st.signals
  effs : st1.effects = st.effects
  que : st1.queue = st.queue
  pend : st1.pending = st.pending
  infl : st1.inFlush = st.inFlush
  len : st1.computeds.length = st.computeds.length
  exprs : ∀ j, st1.cexpr j = st.cexpr j
  cleanMono : ∀ j, st.isClean j → st1.isClean j
  cleanCache : ∀ j, st.isClean j → st1.cacheOf j = st.cacheOf j
  cleanDeps : ∀ j, st.isClean j → st1.depsOf j = st.depsOf j
  stackDirty : ∀ j ∈ stack, st1.isClean j → st.isClean j
  stackNotRead : ∀ x ∈ stack, Src.c x ∉ staticReads e
  dsEq : ds = staticReads e
  vEq : v = shallowEval st1 e
  readsClean : ∀ m, Src.c m ∈ staticReads e → st1.isClean m
  ccPres : CleanClosed st → CleanClosed st1
  reachClean : CleanClosed st → ∀ j, EReach st e j → st1.isClean j
  invPres : CleanClosed st → Inv st → Inv st1

/-- The central soundness lemma: every successful evaluation satisfies
EvalOK. -/
theorem evalE_ok_spec :
    ∀ (fuel : Nat) (e : Expr) (stack : List Nat) (st : RState)
      (v : Int) (ds : List Src) (st1 : RState),
      evalE fuel stack st e = .ok (v, ds, st1) → EvalOK stack st e v ds st1 := by
  intro fuel
  induction fuel with
  | zero =>
    intro e stack st v ds st1 h
    simp [evalE] at h
  | succ fuel ih =>
    intro e
    induction e with
    | const n =>
      intro stack st v ds st1 h
      simp only [evalE, evalStep, Except.ok.injEq, Prod.mk.injEq] at h
      obtain ⟨hv, hds, hst⟩ := h
      subst hv hds hst
      exact {
        sigs := rfl, effs := rfl, que := rfl, pend := rfl, infl := rfl
        len := rfl, exprs := fun _ => rfl
        cleanMono := fun _ h => h, cleanCache := fun _ _ => rfl
        cleanDeps := fun _ _ => rfl, stackDirty := fun _ _ h => h
        stackNotRead := fun _ _ => by simp [staticReads]
        dsEq := rfl, vEq := rfl
        readsClean := fun m hm => by simp [staticReads] at hm
        ccPres := fun h => h
        reachClean := fun _ j hj => by
          rcases hj with hj | ⟨m, hm, _⟩ <;> simp_all [staticReads]
        invPres := fun _ h => h }
    | readSig i =>
      intro stack st v ds st1 h
      simp only [evalE, evalStep, Except.ok.injEq, Prod.mk.injEq] at h
      obtain ⟨hv, hds, hst⟩ := h
      subst hv hds hst
      exact {
        sigs := rfl, effs := rfl, que := rfl, pend := rfl, infl := rfl
        len := rfl, exprs := fun _ => rfl
        cleanMono := fun _ h => h, cleanCache := fun _ _ => rfl
        cleanDeps := fun _ _ => rfl, stackDirty := fun _ _ h => h
        stackNotRead := fun _ _ => by simp [staticReads]
        dsEq := rfl, vEq := rfl
        readsClean := fun m hm => by simp [staticReads] at hm
        ccPres := fun h => h
        reachClean := fun _ j hj => by
          rcases hj with hj | ⟨m, hm, _⟩ <;> simp_all [staticReads]
        invPres := fun _ h => h }
    | readComp i =>
      intro stack st v ds st1 h
      simp only [evalE, evalStep] at h
      by_cases hmem : i ∈ stack
      · simp [hmem] at h
      · simp only [hmem, if_false, if_neg] at h
        cases hco : st.computeds[i]? with
        | none =>
          rw [hco] at h
          simp only [Except.ok.injEq, Prod.mk.injEq] at h
          obtain ⟨hv, hds, hst⟩ := h
          subst hv hds hst
          have hge : st.computeds.length ≤ i := by
            by_contra hlt
            rw [List.getElem?_eq_getElem (Nat.lt_of_not_le hlt)] at hco
            exact Option.noConfusion hco
          have hclean : st.isClean i := by
            simp [RState.isClean, dirtyOf_none hco]
          refine {
            sigs := rfl, effs := rfl, que := rfl, pend := rfl, infl := rfl
            len := rfl, exprs := fun _ => rfl
            cleanMono := fun _ h => h, cleanCache := fun _ _ => rfl
            cleanDeps := fun _ _ => rfl, stackDirty := fun _ _ h => h
            stackNotRead := fun x hx => by
              simp only [staticReads, List.mem_singleton, Src.c.injEq]
              rintro rfl; exact hmem hx
            dsEq := rfl
            vEq := by simp [shallowEval, cacheOf_none hco]
            readsClean := fun m hm => by
              simp only [staticReads, List.mem_singleton, Src.c.injEq] at hm
              rw [hm]; exact hclean
            ccPres := fun h => h
            reachClean := fun _ j hj => ?_
            invPres := fun _ h => h }
          rcases hj with hj | ⟨m, hm, hr⟩
          · simp only [staticReads, List.mem_singleton, Src.c.injEq] at hj
            rw [hj]; exact hclean
          · simp only [staticReads, List.mem_singleton, Src.c.injEq] at hm
            rw [hm] at hr
            exact absurd (reach_lt hr) (Nat.not_lt_of_le hge)
        | some co =>
          rw [hco] at h
          dsimp only at h
          by_cases hd : co.dirty
          · -- dirty: the derivation re-runs
            simp only [hd, if_true] at h
            cases hsub : evalE fuel (i :: stack) st co.expr with
            | error e' => rw [hsub] at h; exact absurd h (by simp)
            | ok r =>
              obtain ⟨v', ds', stA⟩ := r
              rw [hsub] at h
              simp only [Except.ok.injEq, Prod.mk.injEq] at h
              obtain ⟨hv, hds, hst⟩ := h
              have IH := ih co.expr (i :: stack) st v' ds' stA hsub
              have hi_lt : i < st.computeds.length := lt_of_getComp_some hco
              have hiA : i < stA.computeds.length := by rw [IH.len]; exact hi_lt
              obtain ⟨coA, hcoA⟩ : ∃ coA, stA.computeds[i]? = some coA := by
                rw [List.getElem?_eq_getElem hiA]; exact ⟨_, rfl⟩
              have hAexpr : coA.expr = co.expr := by
                have := IH.exprs i
                rw [cexpr_some hcoA, cexpr_some hco] at this
                exact this
              have hstdirty : st.dirtyOf i = true := by rw [dirtyOf_some hco, hd]
              have hAdirty : stA.dirtyOf i = true := by
                by_contra hc
                have : stA.isClean i := by
                  simp [RState.isClean] at hc ⊢; exact hc
                have := IH.stackDirty i (List.mem_cons_self i stack) this
                rw [RState.isClean, hstdirty] at this
                exact Bool.noConfusion this
              have hnotselfread : Src.c i ∉ staticReads co.expr :=
                IH.stackNotRead i (List.mem_cons_self i stack)
              set co' : Computed :=
                { ((stA.computeds[i]?).getD co) with
                  cache := v', dirty := false, deps := ds',
                  runs := ((stA.computeds[i]?).getD co).runs + 1 } with hco'
              have hst1 : st1 = stA.setComp i co' := hst.symm
              have hco'A : co' = { coA with cache := v', dirty := false, deps := ds', runs := coA.runs + 1 } := by rw [hco', hcoA]; rfl
              have hi1 : i < st1.computeds.length := by
                rw [hst1, setComp_len]; exact hiA
              -- getters of st1
              have hget_self : st1.computeds[i]? = some co' := by
                rw [hst1]; exact setComp_get_self stA i co' hiA
              have hget_ne : ∀ j, i ≠ j → st1.computeds[j]? = stA.computeds[j]? := by
                intro j hj; rw [hst1]; exact setComp_get_ne stA i co' hj
              have hexprs : ∀ j, st1.cexpr j = st.cexpr j := by
                intro j
                by_cases hji : i = j
                · subst hji
                  rw [cexpr_some hget_self, cexpr_some hco, hco'A]
                  exact hAexpr
                · rw [show st1.cexpr j = stA.cexpr j by
                    simp [RState.cexpr, hget_ne j hji]]
                  exact IH.exprs j
              have hclean1_self : st1.isClean i := by
                simp [RState.isClean, dirtyOf_some hget_self, hco'A]
              have hclean1_ne : ∀ j, i ≠ j → (st1.isClean j ↔ stA.isClean j) := by
                intro j hj
                simp [RState.isClean, RState.dirtyOf, hget_ne j hj]
              have hcache1_ne : ∀ j, i ≠ j → st1.cacheOf j = stA.cacheOf j := by
                intro j hj; simp [RState.cacheOf, hget_ne j hj]
              have hdeps1_ne : ∀ j, i ≠ j → st1.depsOf j = stA.depsOf j := by
                intro j hj; simp [RState.depsOf, hget_ne j hj]
              have hAnotclean : ¬ stA.isClean i := by
                rw [RState.isClean, hAdirty]; simp
              have hstnotclean : ¬ st.isClean i := by
                rw [RState.isClean, hstdirty]; simp
              have hsigs1 : st1.signals = st.signals := by
                rw [hst1, setComp_signals]; exact IH.sigs
              have hcache1_self : st1.cacheOf i = v' := by
                rw [cacheOf_some hget_self, hco'A]
              have hdeps1_self : st1.depsOf i = ds' := by
                rw [depsOf_some hget_self, hco'A]
              have hreadsCleanA : ∀ m, Src.c m ∈ staticReads co.expr → st1.isClean m := by
                intro m hm
                have hmA := IH.readsClean m hm
                have hmi : i ≠ m := by rintro rfl; exact hnotselfread hm
                exact (hclean1_ne m hmi).2 hmA
              have hcexpr1_self : st1.cexpr i = co.expr := by
                rw [cexpr_some hget_self, hco'A]; exact hAexpr
              have hshallow_pres : ∀ e', (∀ m, Src.c m ∈ staticReads e' → stA.isClean m) →
                  shallowEval st1 e' = shallowEval stA e' := by
                intro e' hcl
                refine shallow_congr (fun j _ => ?_) (fun m hm => ?_)
                · exact sigVal_congr (by rw [hst1, setComp_signals]) j
                · have hmi : i ≠ m := by rintro rfl; exact hAnotclean (hcl i hm)
                  exact hcache1_ne m hmi
              refine {
                sigs := hsigs1
                effs := by rw [hst1, setComp_effects]; exact IH.effs
                que := by rw [hst1, setComp_queue]; exact IH.que
                pend := by rw [hst1, setComp_pending]; exact IH.pend
                infl := by rw [hst1, setComp_inFlush]; exact IH.infl
                len := by rw [hst1, setComp_len]; exact IH.len
                exprs := hexprs
                cleanMono := fun j hj => ?_
                cleanCache := fun j hj => ?_
                cleanDeps := fun j hj => ?_
                stackDirty := fun j hjmem hj1 => ?_
                stackNotRead := fun x hx => by
                  simp only [staticReads, List.mem_singleton, Src.c.injEq]
                  rintro rfl; exact hmem hx
                dsEq := by rw [← hds]; rfl
                vEq := by simp [shallowEval, hcache1_self, hv]
                readsClean := fun m hm => by
                  simp only [staticReads, List.mem_singleton, Src.c.injEq] at hm
                  rw [hm]; exact hclean1_self
                ccPres := fun hcc => ?_
                reachClean := fun hcc j hj => ?_
                invPres := fun hcc hinv => ?_ }
              · -- cleanMono
                have hji : i ≠ j := by rintro rfl; exact hstnotclean hj
                exact (hclean1_ne j hji).2 (IH.cleanMono j hj)
              · -- cleanCache
                have hji : i ≠ j := by rintro rfl; exact hstnotclean hj
                rw [hcache1_ne j hji]; exact IH.cleanCache j hj
              · -- cleanDeps
                have hji : i ≠ j := by rintro rfl; exact hstnotclean hj
                rw [hdeps1_ne j hji]; exact IH.cleanDeps j hj
              · -- stackDirty
                have hji : i ≠ j := by rintro rfl; exact hmem hjmem
                exact IH.stackDirty j (List.mem_cons_of_mem i hjmem)
                  ((hclean1_ne j hji).1 hj1)
              · -- ccPres
                have hccA := IH.ccPres hcc
                intro j hjlen hjclean d hd
                have hcexpr_j : st1.cexpr j = st.cexpr j := hexprs j
                by_cases hji : i = j
                · subst hji
                  rw [hcexpr1_self] at hd
                  cases d with
                  | s _ => trivial
                  | c m =>
                    have := hreadsCleanA m hd
                    simpa [srcClean] using this
                · have hjA : stA.isClean j := (hclean1_ne j hji).1 hjclean
                  have hjlenA : j < stA.computeds.length := by
                    rw [IH.len]
                    rw [hst1, setComp_len, IH.len] at hjlen; exact hjlen
                  have hdA : d ∈ staticReads (stA.cexpr j) := by
                    rw [IH.exprs j, ← hcexpr_j]; exact hd
                  have := hccA j hjlenA hjA d hdA
                  cases d with
                  | s _ => trivial
                  | c m =>
                    simp only [srcClean] at this ⊢
                    have hmi : i ≠ m := by rintro rfl; exact hAnotclean this
                    exact (hclean1_ne m hmi).2 this
              · -- reachClean
                rcases hj with hj | ⟨m, hm, hr⟩
                · simp only [staticReads, List.mem_singleton, Src.c.injEq] at hj
                  rw [hj]; exact hclean1_self
                · simp only [staticReads, List.mem_singleton, Src.c.injEq] at hm
                  rw [hm] at hr
                  cases hr with
                  | base hmm =>
                    rw [cexpr_some hco] at hmm
                    have := IH.reachClean hcc j (Or.inl hmm)
                    have hji : i ≠ j := by rintro rfl; exact hAnotclean this
                    exact (hclean1_ne j hji).2 this
                  | trans hmm hr' =>
                    rw [cexpr_some hco] at hmm
                    have := IH.reachClean hcc j (Or.inr ⟨_, hmm, hr'⟩)
                    have hji : i ≠ j := by rintro rfl; exact hAnotclean this
                    exact (hclean1_ne j hji).2 this
              · -- invPres
                have hccA := IH.ccPres hcc
                have hinvA := IH.invPres hcc hinv
                intro j hjlen hjclean
                by_cases hji : i = j
                · subst hji
                  rw [hcexpr1_self, hcache1_self, hdeps1_self, IH.dsEq]
                  refine ⟨?_, fun _ h => h, fun _ h => h⟩
                  rw [hshallow_pres co.expr (fun m hm => IH.readsClean m hm)]
                  exact IH.vEq
                · have hjA : stA.isClean j := (hclean1_ne j hji).1 hjclean
                  have hjlenA : j < stA.computeds.length := by
                    rw [hst1, setComp_len] at hjlen; exact hjlen
                  obtain ⟨hcacheA, hsubA, hsupA⟩ := hinvA j hjlenA hjA
                  have hx : st1.cexpr j = stA.cexpr j := by
                    simp [RState.cexpr, hget_ne j hji]
                  have hcleanreadsA : ∀ m, Src.c m ∈ staticReads (stA.cexpr j) →
                      stA.isClean m := by
                    intro m hm
                    have := hccA j hjlenA hjA _ hm
                    simpa [srcClean] using this
                  refine ⟨?_, ?_, ?_⟩
                  · rw [hcache1_ne j hji, hx, hshallow_pres _ hcleanreadsA]
                    exact hcacheA
                  · rw [hdeps1_ne j hji, hx]; exact hsubA
                  · rw [hdeps1_ne j hji, hx]; exact hsupA
          · -- clean: the cache is returned
            rw [if_neg hd] at h
            simp only [Except.ok.injEq, Prod.mk.injEq] at h
            obtain ⟨hv, hds, hst⟩ := h
            subst hst
            subst hv
            subst hds
            have hclean : st.isClean i := by
              simp [RState.isClean, dirtyOf_some hco, Bool.eq_false_iff.2 hd]
            refine {
              sigs := rfl, effs := rfl, que := rfl, pend := rfl, infl := rfl
              len := rfl, exprs := fun _ => rfl
              cleanMono := fun _ h => h, cleanCache := fun _ _ => rfl
              cleanDeps := fun _ _ => rfl, stackDirty := fun _ _ h => h
              stackNotRead := fun x hx => by
                simp only [staticReads, List.mem_singleton, Src.c.injEq]
                rintro rfl; exact hmem hx
              dsEq := rfl
              vEq := by simp [shallowEval, cacheOf_some hco]
              readsClean := fun m hm => by
                simp only [staticReads, List.mem_singleton, Src.c.injEq] at hm
                rw [hm]; exact hclean
              ccPres := fun h => h
              reachClean := fun hcc j hj => ?_
              invPres := fun _ h => h }
            rcases hj with hj | ⟨m, hm, hr⟩
            · simp only [staticReads, List.mem_singleton, Src.c.injEq] at hj
              rw [hj]; exact hclean
            · simp only [staticReads, List.mem_singleton, Src.c.injEq] at hm
              rw [hm] at hr
              exact cc_reach hcc hclean hr
    | bin op a b iha ihb =>
      intro stack st v ds st1 h
      simp only [evalE, evalStep] at h
      cases ha : evalStep (evalE fuel) stack st a with
      | error e' => rw [ha] at h; exact absurd h (by simp)
      | ok ra =>
        obtain ⟨va, dsa, stA⟩ := ra
        rw [ha] at h
        dsimp only at h
        cases hb : evalStep (evalE fuel) stack stA b with
        | error e' => rw [hb] at h; exact absurd h (by simp)
        | ok rb =>
          obtain ⟨vb, dsb, stB⟩ := rb
          rw [hb] at h
          simp only [Except.ok.injEq, Prod.mk.injEq] at h
          obtain ⟨hv, hds, hst⟩ := h
          have IHa := iha stack st va dsa stA ha
          have IHb := ihb stack stA vb dsb stB hb
          subst hst
          have hexprs : ∀ j, stB.cexpr j = st.cexpr j := by
            intro j; rw [IHb.exprs j, IHa.exprs j]
          have hcleanMono : ∀ j, st.isClean j → stB.isClean j := by
            intro j hj; exact IHb.cleanMono j (IHa.cleanMono j hj)
          have hshallowa : shallowEval stB a = shallowEval stA a := by
            refine shallow_congr (fun j _ => sigVal_congr IHb.sigs j) (fun m hm => ?_)
            exact IHb.cleanCache m (IHa.readsClean m hm)
          refine {
            sigs := by rw [IHb.sigs, IHa.sigs]
            effs := by rw [IHb.effs, IHa.effs]
            que := by rw [IHb.que, IHa.que]
            pend := by rw [IHb.pend, IHa.pend]
            infl := by rw [IHb.infl, IHa.infl]
            len := by rw [IHb.len, IHa.len]
            exprs := hexprs
            cleanMono := hcleanMono
            cleanCache := fun j hj => by
              rw [IHb.cleanCache j (IHa.cleanMono j hj), IHa.cleanCache j hj]
            cleanDeps := fun j hj => by
              rw [IHb.cleanDeps j (IHa.cleanMono j hj), IHa.cleanDeps j hj]
            stackDirty := fun j hjmem hj1 =>
              IHa.stackDirty j hjmem (IHb.stackDirty j hjmem hj1)
            stackNotRead := fun x hx => by
              rw [mem_staticReads_bin]
              rintro (hm | hm)
              · exact IHa.stackNotRead x hx hm
              · exact IHb.stackNotRead x hx hm
            dsEq := by rw [← hds, IHa.dsEq, IHb.dsEq]; rfl
            vEq := by
              rw [← hv, IHa.vEq, IHb.vEq]
              simp [shallowEval, hshallowa]
            readsClean := fun m hm => by
              rw [mem_staticReads_bin] at hm
              rcases hm with hm | hm
              · exact IHb.cleanMono m (IHa.readsClean m hm)
              · exact IHb.readsClean m hm
            ccPres := fun hcc => IHb.ccPres (IHa.ccPres hcc)
            reachClean := fun hcc j hj => ?_
            invPres := fun hcc hinv => IHb.invPres (IHa.ccPres hcc) (IHa.invPres hcc hinv) }
          rcases hj with hj | ⟨m, hm, hr⟩
          · rw [mem_staticReads_bin] at hj
            rcases hj with hj | hj
            · exact IHb.cleanMono j (IHa.reachClean hcc j (Or.inl hj))
            · exact IHb.reachClean (IHa.ccPres hcc) j (Or.inl hj)
          · rw [mem_staticReads_bin] at hm
            rcases hm with hm | hm
            · exact IHb.cleanMono j (IHa.reachClean hcc j (Or.inr ⟨m, hm, hr⟩))
            · exact IHb.reachClean (IHa.ccPres hcc) j
                (Or.inr ⟨m, hm, reach_transfer IHa.exprs hr⟩)

lemma toporank_transfer {st st' : RState}
    (hlen : st'.computeds.length = st.computeds.length)
    (hx : ∀ j, st'.cexpr j = st.cexpr j) {rank : Nat → Nat}
    (h : TopoRank st rank) : TopoRank st' rank := by
  intro j hj d hd
  rw [hlen] at hj
  rw [hx] at hd
  exact h j hj d hd

lemma nodup_bounded_length {stack : List Nat} {n : Nat} (hnd : stack.Nodup)
    (hlt : ∀ j ∈ stack, j < n) : stack.length ≤ n := by
  have h1 : stack.toFinset.card = stack.length := List.toFinset_card_of_nodup hnd
  have h2 : stack.toFinset ⊆ Finset.range n := by
    intro x hx
    rw [List.mem_toFinset] at hx
    exact Finset.mem_range.2 (hlt x hx)
  have := Finset.card_le_card h2
  rw [h1, Finset.card_range] at this
  exact this

/-- The stack constraint maintained during evaluation: every Computed the
current expression reads ranks strictly below every frame on the stack. -/
def RankBound (rank : Nat → Nat) (stack : List Nat) (e : Expr) : Prop :=
  ∀ j ∈ stack, ∀ m, Src.c m ∈ staticReads e → rank m < rank j

/-- Completeness: on a graph admitting a topological rank, evaluation with
the standard fuel always succeeds: the re-entrancy guard never fires and
the fuel never runs out. -/
theorem evalE_total :
    ∀ (fuel : Nat) (e : Expr) (stack : List Nat) (st : RState) (rank : Nat → Nat),
      TopoRank st rank →
      stack.Nodup → (∀ j ∈ stack, j < st.computeds.length) →
      RankBound rank stack e →
      st.computeds.length + 1 ≤ fuel + stack.length →
      ∃ v ds st1, evalE fuel stack st e = .ok (v, ds, st1) := by
  intro fuel
  induction fuel with
  | zero =>
    intro e stack st rank _ hnd hlt _ hfuel
    have := nodup_bounded_length hnd hlt
    omega
  | succ fuel ih =>
    intro e
    induction e with
    | const n =>
      intro stack st rank _ _ _ _ _
      exact ⟨n, [], st, by simp [evalE, evalStep]⟩
    | readSig i =>
      intro stack st rank _ _ _ _ _
      exact ⟨st.sigVal i, [Src.s i], st, by simp [evalE, evalStep]⟩
    | readComp i =>
      intro stack st rank htr hnd hlt hrb hfuel
      have hmem : i ∉ stack := by
        intro hmemi
        have := hrb i hmemi i (by simp [staticReads])
        omega
      cases hco : st.computeds[i]? with
      | none =>
        exact ⟨0, [Src.c i], st, by simp [evalE, evalStep, hmem, hco]⟩
      | some co =>
        by_cases hd : co.dirty
        · -- dirty: recurse on the derivation
          have hi_lt : i < st.computeds.length := lt_of_getComp_some hco
          have hnd' : (i :: stack).Nodup := List.nodup_cons.2 ⟨hmem, hnd⟩
          have hlt' : ∀ j ∈ i :: stack, j < st.computeds.length := by
            intro j hj
            rcases List.mem_cons.1 hj with rfl | hj
            · exact hi_lt
            · exact hlt j hj
          have hcx : st.cexpr i = co.expr := cexpr_some hco
          have hrb' : RankBound rank (i :: stack) co.expr := by
            intro j hj m hm
            have hmi : rank m < rank i := by
              have := htr i hi_lt (Src.c m) (by rw [hcx]; exact hm)
              exact this
            rcases List.mem_cons.1 hj with rfl | hj
            · exact hmi
            · have hij : rank i < rank j := hrb j hj i (by simp [staticReads])
              omega
          have hfuel' : st.computeds.length + 1 ≤ fuel + (i :: stack).length := by
            simp only [List.length_cons]
            omega
          obtain ⟨v, ds, stA, hsub⟩ := ih co.expr (i :: stack) st rank htr hnd' hlt' hrb' hfuel'
          cases hres : evalE (fuel + 1) stack st (.readComp i) with
          | error e' => simp [evalE, evalStep, hmem, hco, hd, hsub] at hres
          | ok r =>
            obtain ⟨v1, ds1, st1'⟩ := r
            exact ⟨v1, ds1, st1', rfl⟩
        · exact ⟨co.cache, [Src.c i], st, by simp [evalE, evalStep, hmem, hco, hd]⟩
    | bin op a b iha ihb =>
      intro stack st rank htr hnd hlt hrb hfuel
      have hrba : RankBound rank stack a := by
        intro j hj m hm
        exact hrb j hj m (mem_staticReads_bin.2 (Or.inl hm))
      obtain ⟨va, dsa, stA, ha⟩ := iha stack st rank htr hnd hlt hrba hfuel
      have OKa := evalE_ok_spec (fuel + 1) a stack st va dsa stA ha
      have htrA : TopoRank stA rank := toporank_transfer OKa.len OKa.exprs htr
      have hltA : ∀ j ∈ stack, j < stA.computeds.length := by
        intro j hj; rw [OKa.len]; exact hlt j hj
      have hrbb : RankBound rank stack b := by
        intro j hj m hm
        exact hrb j hj m (mem_staticReads_bin.2 (Or.inr hm))
      have hfuelA : stA.computeds.length + 1 ≤ (fuel + 1) + stack.length := by
        rw [OKa.len]; exact hfuel
      obtain ⟨vb, dsb, stB, hb⟩ := ihb stack stA rank htrA hnd hltA hrbb hfuelA
      refine ⟨op.app va vb, (dsa ++ dsb).dedup, stB, ?_⟩
      simp only [evalE, evalStep]
      rw [show evalStep (evalE fuel) stack st a = Except.ok (va, dsa, stA) from ha]
      dsimp only
      rw [show evalStep (evalE fuel) stack stA b = Except.ok (vb, dsb, stB) from hb]

/-! Lemmas about dirty-marking saturation. -/

lemma markStep_subset (st : RState) (R : Finset Nat) : R ⊆ markStep st R :=
  Finset.subset_union_left

lemma markStep_range (st : RState) {R : Finset Nat}
    (h : R ⊆ Finset.range st.computeds.length) :
    markStep st R ⊆ Finset.range st.computeds.length := by
  intro x hx
  rcases Finset.mem_union.1 hx with hx | hx
  · exact h hx
  · exact Finset.filter_subset _ _ hx

lemma markIter_of_fix {st : RState} {R : Finset Nat}
    (h : markStep st R = R) : ∀ n, markIter st n R = R := by
  intro n
  induction n with
  | zero => rfl
  | succ n ihn => rw [markIter, h, ihn]

lemma markIter_subset (st : RState) : ∀ (n : Nat) (R : Finset Nat), R ⊆ markIter st n R := by
  intro n
  induction n with
  | zero => intro R; exact fun _ h => h
  | succ n ihn =>
    intro R
    exact (markStep_subset st R).trans (ihn (markStep st R))

lemma markIter_range (st : RState) : ∀ (n : Nat) (R : Finset Nat),
    R ⊆ Finset.range st.computeds.length →
    markIter st n R ⊆ Finset.range st.computeds.length := by
  intro n
  induction n with
  | zero => intro R h; exact h
  | succ n ihn =>
    intro R h
    exact ihn _ (markStep_range st h)

lemma markIter_reaches_fix (st : RState) : ∀ (k : Nat) (R : Finset Nat),
    R ⊆ Finset.range st.computeds.length →
    st.computeds.length < k + R.card →
    markStep st (markIter st k R) = markIter st k R := by
  intro k
  induction k with
  | zero =>
    intro R hsub hcard
    have := Finset.card_le_card hsub
    rw [Finset.card_range] at this
    omega
  | succ k ihk =>
    intro R hsub hcard
    by_cases hfix : markStep st R = R
    · rw [markIter, hfix, markIter_of_fix hfix, hfix]
    · have hlt : R.card < (markStep st R).card := by
        refine Finset.card_lt_card ?_
        exact (Finset.ssubset_iff_of_subset (markStep_subset st R)).2 (by
          by_contra hcon
          push_neg at hcon
          exact hfix (Finset.Subset.antisymm (fun x hx => by
            by_contra hxm
            exact absurd (hcon x hx) (by simp [hxm])) (markStep_subset st R)))
      rw [markIter]
      exact ihk (markStep st R) (markStep_range st hsub) (by omega)

lemma markedSet_range (st : RState) (src : Src) :
    markedSet st src ⊆ Finset.range st.computeds.length :=
  markIter_range st _ _ (Finset.filter_subset _ _)

lemma markedSet_fix (st : RState) (src : Src) :
    markStep st (markedSet st src) = markedSet st src :=
  markIter_reaches_fix st _ _ (Finset.filter_subset _ _) (by omega)

lemma mem_markedSet_of_direct {st : RState} {src : Src} {j : Nat}
    (hj : j < st.computeds.length) (hdep : src ∈ st.depsOf j) :
    j ∈ markedSet st src := by
  refine markIter_subset st _ _ ?_
  exact Finset.mem_filter.2 ⟨Finset.mem_range.2 hj, by simp [hdep]⟩

lemma markedSet_closed {st : RState} {src : Src} {j m : Nat}
    (hm : m ∈ markedSet st src) (hj : j < st.computeds.length)
    (hdep : Src.c m ∈ st.depsOf j) : j ∈ markedSet st src := by
  have hfix := markedSet_fix st src
  have hj' : j ∈ markStep st (markedSet st src) := by
    refine Finset.mem_union.2 (Or.inr (Finset.mem_filter.2
      ⟨Finset.mem_range.2 hj, ?_⟩))
    simp only [hitsSet, List.any_eq_true]
    exact ⟨Src.c m, hdep, by simp [hm]⟩
  rwa [hfix] at hj'

/-! Lemmas about the idempotent enqueue. -/

lemma mem_enqueue1 {q : List Nat} {k x : Nat} :
    x ∈ enqueue1 q k ↔ x ∈ q ∨ x = k := by
  unfold enqueue1
  split
  · rename_i hk
    constructor
    · exact fun h => Or.inl h
    · rintro (h | rfl)
      · exact h
      · exact hk
  · simp [List.mem_append]

lemma nodup_enqueue1 {q : List Nat} (h : q.Nodup) (k : Nat) :
    (enqueue1 q k).Nodup := by
  unfold enqueue1
  split
  · exact h
  · rename_i hk
    simpa [List.nodup_append, h] using hk

lemma mem_enqueueAll {q ks : List Nat} {x : Nat} :
    x ∈ enqueueAll q ks ↔ x ∈ q ∨ x ∈ ks := by
  induction ks generalizing q with
  | nil => simp [enqueueAll]
  | cons k ks ihk =>
    show x ∈ enqueueAll (enqueue1 q k) ks ↔ _
    rw [ihk, mem_enqueue1]
    simp [List.mem_cons]
    tauto

lemma nodup_enqueueAll {q : List Nat} (h : q.Nodup) (ks : List Nat) :
    (enqueueAll q ks).Nodup := by
  induction ks generalizing q with
  | nil => exact h
  | cons k ks ihk => exact ihk (nodup_enqueue1 h k)

/-! Lemmas about markList and the write operation. -/

lemma markList_getElem? (M : Finset Nat) :
    ∀ (l : List Computed) (off j : Nat),
      (markList M off l)[j]? =
        (l[j]?).map fun co => if off + j ∈ M then { co with dirty := true } else co := by
  intro l
  induction l with
  | nil => intro off j; simp [markList]
  | cons co cs ihl =>
    intro off j
    cases j with
    | zero => simp [markList]
    | succ j =>
      have hstep : (markList M off (co :: cs))[j + 1]? = (markList M (off + 1) cs)[j]? := by
        simp [markList]
      rw [hstep, ihl (off + 1) j, List.getElem?_cons_succ,
        show off + 1 + j = off + (j + 1) by omega]

lemma markList_get0 (M : Finset Nat) (l : List Computed) (j : Nat) :
    (markList M 0 l)[j]? =
      (l[j]?).map fun co => if j ∈ M then { co with dirty := true } else co := by
  rw [markList_getElem?]
  simp

lemma markList_length (M : Finset Nat) : ∀ (off : Nat) (l : List Computed),
    (markList M off l).length = l.length := by
  intro off l
  induction l generalizing off with
  | nil => rfl
  | cons co cs ihl => simp [markList, ihl]

lemma writeSig_none {st : RState} {i : Nat} (v : Int)
    (h : st.signals[i]? = none) : writeSig st i v = st := by
  unfold writeSig
  rw [h]

lemma writeSig_noop {st : RState} {i : Nat} {v : Int} {sg : Signal}
    (hsg : st.signals[i]? = some sg) (he : sg.policy.eqv sg.value v = true) :
    writeSig st i v = st := by
  unfold writeSig
  rw [hsg]
  simp [he]

lemma writeSig_effects (st : RState) (i : Nat) (v : Int) :
    (writeSig st i v).effects = st.effects := by
  unfold writeSig
  cases st.signals[i]? with
  | none => rfl
  | some sg =>
    simp only []
    by_cases he : sg.policy.eqv sg.value v = true
    · simp [he]
    · rw [if_neg he]
      split <;> rfl

lemma writeSig_inFlush (st : RState) (i : Nat) (v : Int) :
    (writeSig st i v).inFlush = st.inFlush := by
  unfold writeSig
  cases st.signals[i]? with
  | none => rfl
  | some sg =>
    simp only []
    by_cases he : sg.policy.eqv sg.value v = true
    · simp [he]
    · rw [if_neg he]
      split <;> rfl

lemma writeSig_computeds (st : RState) (i : Nat) (v : Int) :
    (writeSig st i v).computeds = st.computeds ∨
      (writeSig st i v).computeds = markList (markedSet st (Src.s i)) 0 st.computeds := by
  unfold writeSig
  cases st.signals[i]? with
  | none => exact Or.inl rfl
  | some sg =>
    simp only []
    by_cases he : sg.policy.eqv sg.value v = true
    · simp [he]
    · rw [if_neg he]
      split <;> exact Or.inr rfl

lemma writeSig_len (st : RState) (i : Nat) (v : Int) :
    (writeSig st i v).computeds.length = st.computeds.length := by
  rcases writeSig_computeds st i v with h | h <;> rw [h]
  exact markList_length _ _ _

lemma writeSig_cexpr (st : RState) (i : Nat) (v : Int) (j : Nat) :
    (writeSig st i v).cexpr j = st.cexpr j := by
  rcases writeSig_computeds st i v with h | h <;>
    simp only [RState.cexpr, h, markList_get0]
  cases st.computeds[j]? <;> simp <;> split <;> rfl

lemma writeSig_cacheOf (st : RState) (i : Nat) (v : Int) (j : Nat) :
    (writeSig st i v).cacheOf j = st.cacheOf j := by
  rcases writeSig_computeds st i v with h | h <;>
    simp only [RState.cacheOf, h, markList_get0]
  cases st.computeds[j]? <;> simp <;> split <;> rfl

lemma writeSig_depsOf (st : RState) (i : Nat) (v : Int) (j : Nat) :
    (writeSig st i v).depsOf j = st.depsOf j := by
  rcases writeSig_computeds st i v with h | h <;>
    simp only [RState.depsOf, h, markList_get0]
  cases st.computeds[j]? <;> simp <;> split <;> rfl

lemma writeSig_crunsOf (st : RState) (i : Nat) (v : Int) (j : Nat) :
    (writeSig st i v).crunsOf j = st.crunsOf j := by
  rcases writeSig_computeds st i v with h | h <;>
    simp only [RState.crunsOf, h, markList_get0]
  cases st.computeds[j]? <;> simp <;> split <;> rfl

lemma writeSig_dirtyOf {st : RState} {i : Nat} {v : Int} {sg : Signal}
    (hsg : st.signals[i]? = some sg) (he : sg.policy.eqv sg.value v = false)
    (j : Nat) :
    (writeSig st i v).dirtyOf j =
      (if j ∈ markedSet st (Src.s i) then true else st.dirtyOf j) := by
  have hw : (writeSig st i v).computeds = markList (markedSet st (Src.s i)) 0 st.computeds := by
    unfold writeSig
    rw [hsg]
    simp only []
    rw [if_neg (by simp [he])]
    split <;> rfl
  simp only [RState.dirtyOf, hw, markList_get0]
  cases hc : st.computeds[j]? with
  | none =>
    have hge : st.computeds.length ≤ j := by
      by_contra hlt
      rw [List.getElem?_eq_getElem (Nat.lt_of_not_le hlt)] at hc
      exact Option.noConfusion hc
    have hnm : j ∉ markedSet st (Src.s i) := by
      intro hm
      have := Finset.mem_range.1 (markedSet_range st (Src.s i) hm)
      omega
    simp [hnm]
  | some co =>
    split <;> simp

lemma writeSig_sigVal {st : RState} {i : Nat} {v : Int} {sg : Signal}
    (hsg : st.signals[i]? = some sg) (he : sg.policy.eqv sg.value v = false)
    (j : Nat) :
    (writeSig st i v).sigVal j = (if j = i then v else st.sigVal j) := by
  have hw : (writeSig st i v).signals = st.signals.set i { sg with value := v } := by
    unfold writeSig
    rw [hsg]
    simp only []
    rw [if_neg (by simp [he])]
    split <;> rfl
  simp only [RState.sigVal, hw]
  by_cases hji : j = i
  · rw [hji, if_pos rfl]
    have hlt : i < st.signals.length := by
      by_contra hge
      rw [List.getElem?_eq_none (Nat.le_of_not_lt hge)] at hsg
      exact Option.noConfusion hsg
    rw [List.getElem?_set_self hlt]
    rfl
  · rw [List.getElem?_set_ne (fun h => hji h.symm), if_neg hji]

lemma writeSig_queue_of_inFlush {st : RState} (hf : st.inFlush = true)
    (i : Nat) (v : Int) : (writeSig st i v).queue = st.queue := by
  unfold writeSig
  cases st.signals[i]? with
  | none => rfl
  | some sg =>
    simp only []
    by_cases he : sg.policy.eqv sg.value v = true
    · simp [he]
    · rw [if_neg he]
      rw [if_pos hf]

lemma writeSig_pending_of_not_inFlush {st : RState} (hf : st.inFlush = false)
    (i : Nat) (v : Int) : (writeSig st i v).pending = st.pending := by
  unfold writeSig
  cases st.signals[i]? with
  | none => rfl
  | some sg =>
    simp only []
    by_cases he : sg.policy.eqv sg.value v = true
    · simp [he]
    · rw [if_neg he]
      rw [if_neg (by simp [hf])]

lemma writeSig_queue_chr {st : RState} {i : Nat} {v : Int} {sg : Signal}
    (hsg : st.signals[i]? = some sg) (he : sg.policy.eqv sg.value v = false)
    (hf : st.inFlush = false) :
    (writeSig st i v).queue =
      enqueueAll st.queue (affectedEffects st (Src.s i) (markedSet st (Src.s i))) := by
  unfold writeSig
  rw [hsg]
  simp only []
  rw [if_neg (by simp [he])]
  rw [if_neg (by simp [hf])]

lemma writeSig_pending_chr {st : RState} {i : Nat} {v : Int} {sg : Signal}
    (hsg : st.signals[i]? = some sg) (he : sg.policy.eqv sg.value v = false)
    (hf : st.inFlush = true) :
    (writeSig st i v).pending =
      enqueueAll st.pending (affectedEffects st (Src.s i) (markedSet st (Src.s i))) := by
  unfold writeSig
  rw [hsg]
  simp only []
  rw [if_neg (by simp [he])]
  rw [if_pos hf]

lemma writeSig_queue_cases (st : RState) (i : Nat) (v : Int) :
    (writeSig st i v).queue = st.queue ∨
      (writeSig st i v).queue =
        enqueueAll st.queue (affectedEffects st (Src.s i) (markedSet st (Src.s i))) := by
  unfold writeSig
  cases st.signals[i]? with
  | none => exact Or.inl rfl
  | some sg =>
    simp only []
    by_cases he : sg.policy.eqv sg.value v = true
    · simp [he]
    · rw [if_neg he]
      split
      · exact Or.inl rfl
      · exact Or.inr rfl

/-- A write preserves the cache-correctness well-formedness. -/
theorem writeSig_WF {st : RState} (h : WF st) (i : Nat) (v : Int) :
    WF (writeSig st i v) := by
  obtain ⟨hinv, hcc⟩ := h
  cases hsg : st.signals[i]? with
  | none => rw [writeSig_none v hsg]; exact ⟨hinv, hcc⟩
  | some sg =>
    by_cases he : sg.policy.eqv sg.value v = true
    · rw [writeSig_noop hsg he]; exact ⟨hinv, hcc⟩
    · have he' : sg.policy.eqv sg.value v = false := Bool.eq_false_iff.2 he
      have hdirty := writeSig_dirtyOf hsg he'
      have hlen := writeSig_len st i v
      have hcex := writeSig_cexpr st i v
      have hcache := writeSig_cacheOf st i v
      have hdeps := writeSig_depsOf st i v
      have hsv := writeSig_sigVal hsg he'
      have hcleanW : ∀ j, (writeSig st i v).isClean j →
          j ∉ markedSet st (Src.s i) ∧ st.isClean j := by
        intro j hj
        simp only [RState.isClean] at hj ⊢
        rw [hdirty j] at hj
        by_cases hjm : j ∈ markedSet st (Src.s i)
        · rw [if_pos hjm] at hj; exact absurd hj (by simp)
        · rw [if_neg hjm] at hj; exact ⟨hjm, hj⟩
      constructor
      · intro j hjlen hjclean
        obtain ⟨hjm, hjst⟩ := hcleanW j hjclean
        have hjlen' : j < st.computeds.length := by rw [← hlen]; exact hjlen
        obtain ⟨hc, hsub, hsup⟩ := hinv j hjlen' hjst
        refine ⟨?_, ?_, ?_⟩
        · rw [hcache j, hcex j, hc]
          refine (shallow_congr (fun sIdx hs => ?_) (fun m _ => hcache m)).symm
          rw [hsv sIdx]
          by_cases hsi : sIdx = i
          · exfalso
            rw [hsi] at hs
            exact hjm (mem_markedSet_of_direct hjlen' (hsup hs))
          · rw [if_neg hsi]
        · rw [hdeps j, hcex j]; exact hsub
        · rw [hdeps j, hcex j]; exact hsup
      · intro j hjlen hjclean d hd
        obtain ⟨hjm, hjst⟩ := hcleanW j hjclean
        have hjlen' : j < st.computeds.length := by rw [← hlen]; exact hjlen
        rw [hcex j] at hd
        have hsc := hcc j hjlen' hjst d hd
        cases d with
        | s _ => trivial
        | c m =>
          simp only [srcClean] at hsc ⊢
          simp only [RState.isClean]
          rw [hdirty m]
          have hmnm : m ∉ markedSet st (Src.s i) := by
            intro hmm
            have hdep : Src.c m ∈ st.depsOf j := (hinv j hjlen' hjst).2.2 hd
            exact hjm (markedSet_closed hmm hjlen' hdep)
          rw [if_neg hmnm]
          exact hsc

/-! Well-formedness is a property of the computeds and signals alone. -/

lemma WF_congr {st st' : RState} (h : WF st) (hc : st'.computeds = st.computeds)
    (hs : st'.signals = st.signals) : WF st' := by
  obtain ⟨hinv, hcc⟩ := h
  have hce : ∀ j, st'.cexpr j = st.cexpr j := fun j => by simp [RState.cexpr, hc]
  have hca : ∀ j, st'.cacheOf j = st.cacheOf j := fun j => by simp [RState.cacheOf, hc]
  have hdi : ∀ j, st'.dirtyOf j = st.dirtyOf j := fun j => by simp [RState.dirtyOf, hc]
  have hde : ∀ j, st'.depsOf j = st.depsOf j := fun j => by simp [RState.depsOf, hc]
  have hsh : ∀ e, shallowEval st' e = shallowEval st e := fun e =>
    shallow_congr (fun i _ => sigVal_congr hs i) (fun m _ => hca m)
  constructor
  · intro j hj hcl
    rw [hc] at hj
    have hcl' : st.isClean j := by
      simp only [RState.isClean] at hcl ⊢
      rw [← hdi j]; exact hcl
    obtain ⟨h1, h2, h3⟩ := hinv j hj hcl'
    refine ⟨?_, ?_, ?_⟩
    · rw [hca j, hce j, hsh]; exact h1
    · rw [hde j, hce j]; exact h2
    · rw [hde j, hce j]; exact h3
  · intro j hj hcl d hd
    rw [hc] at hj
    have hcl' : st.isClean j := by
      simp only [RState.isClean] at hcl ⊢
      rw [← hdi j]; exact hcl
    rw [hce j] at hd
    have hsc := hcc j hj hcl' d hd
    cases d with
    | s _ => trivial
    | c m =>
      simp only [srcClean, RState.isClean] at hsc ⊢
      rw [hdi m]; exact hsc

/-! Batched writes: folds of writeSig. -/

lemma applyWrites_effects : ∀ (ws : List (Nat × Int)) (st : RState),
    (applyWrites st ws).effects = st.effects := by
  intro ws
  induction ws with
  | nil => intro st; rfl
  | cons w ws ihw =>
    intro st
    obtain ⟨i, v⟩ := w
    show (applyWrites (writeSig st i v) ws).effects = _
    rw [ihw, writeSig_effects]

lemma applyWrites_crunsOf : ∀ (ws : List (Nat × Int)) (st : RState) (j : Nat),
    (applyWrites st ws).crunsOf j = st.crunsOf j := by
  intro ws
  induction ws with
  | nil => intro st j; rfl
  | cons w ws ihw =>
    intro st j
    obtain ⟨i, v⟩ := w
    show (applyWrites (writeSig st i v) ws).crunsOf j = _
    rw [ihw, writeSig_crunsOf]

lemma applyWrites_cexpr : ∀ (ws : List (Nat × Int)) (st : RState) (j : Nat),
    (applyWrites st ws).cexpr j = st.cexpr j := by
  intro ws
  induction ws with
  | nil => intro st j; rfl
  | cons w ws ihw =>
    intro st j
    obtain ⟨i, v⟩ := w
    show (applyWrites (writeSig st i v) ws).cexpr j = _
    rw [ihw, writeSig_cexpr]

lemma applyWrites_len : ∀ (ws : List (Nat × Int)) (st : RState),
    (applyWrites st ws).computeds.length = st.computeds.length := by
  intro ws
  induction ws with
  | nil => intro st; rfl
  | cons w ws ihw =>
    intro st
    obtain ⟨i, v⟩ := w
    show (applyWrites (writeSig st i v) ws).computeds.length = _
    rw [ihw, writeSig_len]

lemma applyWrites_inFlush : ∀ (ws : List (Nat × Int)) (st : RState),
    (applyWrites st ws).inFlush = st.inFlush := by
  intro ws
  induction ws with
  | nil => intro st; rfl
  | cons w ws ihw =>
    intro st
    obtain ⟨i, v⟩ := w
    show (applyWrites (writeSig st i v) ws).inFlush = _
    rw [ihw, writeSig_inFlush]

lemma applyWrites_queue_of_inFlush : ∀ (ws : List (Nat × Int)) (st : RState),
    st.inFlush = true → (applyWrites st ws).queue = st.queue := by
  intro ws
  induction ws with
  | nil => intro st _; rfl
  | cons w ws ihw =>
    intro st hf
    obtain ⟨i, v⟩ := w
    show (applyWrites (writeSig st i v) ws).queue = _
    rw [ihw _ (by rw [writeSig_inFlush]; exact hf), writeSig_queue_of_inFlush hf]

lemma applyWrites_WF : ∀ (ws : List (Nat × Int)) {st : RState},
    WF st → WF (applyWrites st ws) := by
  intro ws
  induction ws with
  | nil => intro st h; exact h
  | cons w ws ihw =>
    intro st h
    obtain ⟨i, v⟩ := w
    exact ihw (writeSig_WF h i v)

/-! Running one effect. -/

theorem runEffect_WF {st : RState} (h : WF st) (k : Nat) : WF (runEffect st k) := by
  unfold runEffect
  cases hef : st.effects[k]? with
  | none => exact h
  | some ef =>
    simp only []
    by_cases hd : ef.disposed = true
    · rw [if_pos hd]; exact h
    · rw [if_neg hd]
      cases hev : evalE (fuelOf st) [] st ef.expr with
      | error e => exact h
      | ok r =>
        obtain ⟨v, ds, st1⟩ := r
        have OK := evalE_ok_spec _ _ _ _ _ _ _ hev
        have h1 : WF st1 := ⟨OK.invPres h.2 h.1, OK.ccPres h.2⟩
        exact applyWrites_WF ef.writes (@WF_congr st1 _ h1 rfl rfl)

theorem flush_WF {st : RState} (h : WF st) : WF (flush st) := by
  unfold flush
  simp only []
  have base : WF ({ st with queue := [], inFlush := true } : RState) :=
    @WF_congr st _ h rfl rfl
  have hfold : ∀ (q : List Nat) (st0 : RState), WF st0 → WF (q.foldl runEffect st0) := by
    intro q
    induction q with
    | nil => intro st0 h0; exact h0
    | cons k q ihq => intro st0 h0; exact ihq _ (runEffect_WF h0 k)
  exact @WF_congr _ _ (hfold st.queue _ base) rfl rfl

theorem readComputed_WF {st : RState} (h : WF st) {i : Nat} {v : Int} {st1 : RState}
    (hr : readComputed st i = .ok (v, st1)) : WF st1 := by
  unfold readComputed at hr
  cases hev : evalE (fuelOf st) [] st (.readComp i) with
  | error e => rw [hev] at hr; exact absurd hr (by simp)
  | ok r =>
    obtain ⟨v', ds, st1'⟩ := r
    rw [hev] at hr
    simp only [Except.ok.injEq, Prod.mk.injEq] at hr
    obtain ⟨_, hst⟩ := hr
    have OK := evalE_ok_spec _ _ _ _ _ _ _ hev
    rw [← hst]
    exact ⟨OK.invPres h.2 h.1, OK.ccPres h.2⟩

/-- What running one write-free, live Effect does. -/
structure RunOut (st st2 : RState) (k : Nat) (ef : Effect) : Prop where
  sigs : st2.signals = st.signals
  len : st2.computeds.length = st.computeds.length
  exprs : ∀ j, st2.cexpr j = st.cexpr j
  cleanMono : ∀ j, st.isClean j → st2.isClean j
  cleanCache : ∀ j, st.isClean j → st2.cacheOf j = st.cacheOf j
  que : st2.queue = st.queue
  pend : st2.pending = st.pending
  infl : st2.inFlush = st.inFlush
  effLen : st2.effects.length = st.effects.length
  effOther : ∀ j, j ≠ k → st2.effects[j]? = st.effects[j]?
  effSelfLog : st2.effLog k = st.effLog k ++ [shallowEval st2 ef.expr]
  effSelfRuns : st2.effRuns k = st.effRuns k + 1
  effSelfDisposed : st2.effDisposed k = false
  effSelfExpr : st2.effExpr k = ef.expr
  effSelfWrites : st2.effWrites k = ef.writes
  readsClean : ∀ m, Src.c m ∈ staticReads ef.expr → st2.isClean m
  wf : WF st → WF st2

theorem runEffect_spec {st : RState} {k : Nat} {ef : Effect} (rank : Nat → Nat)
    (htr : TopoRank st rank)
    (hef : st.effects[k]? = some ef) (hd : ef.disposed = false)
    (hw : ef.writes = []) : RunOut st (runEffect st k) k ef := by
  have hklen : k < st.effects.length := by
    by_contra hge
    rw [List.getElem?_eq_none (Nat.le_of_not_lt hge)] at hef
    exact Option.noConfusion hef
  obtain ⟨v, ds, st1, hev⟩ := evalE_total (fuelOf st) ef.expr [] st rank htr
    List.nodup_nil (by simp) (by intro j hj; simp at hj) (by simp [fuelOf])
  have OK := evalE_ok_spec _ _ _ _ _ _ _ hev
  set ef1 : Effect := { ef with log := ef.log ++ [v], runs := ef.runs + 1, deps := ds } with hef1
  have hrun : runEffect st k = { st1 with effects := st1.effects.set k ef1 } := by
    unfold runEffect
    rw [hef]
    simp only []
    rw [if_neg (by simp [hd]), hev]
    simp only [hw, applyWrites]
    simp [hef1, hw]
  rw [hrun]
  have hk1 : k < st1.effects.length := by rw [OK.effs]; exact hklen
  have hgetk : (st1.effects.set k ef1)[k]? = some ef1 :=
    List.getElem?_set_self hk1
  have hsh : shallowEval { st1 with effects := st1.effects.set k ef1 } ef.expr =
      shallowEval st1 ef.expr :=
    shallow_congr (fun i _ => sigVal_congr rfl i) (fun m _ => rfl)
  refine {
    sigs := OK.sigs
    len := OK.len
    exprs := OK.exprs
    cleanMono := OK.cleanMono
    cleanCache := OK.cleanCache
    que := OK.que
    pend := OK.pend
    infl := OK.infl
    effLen := by simp [OK.effs]
    effOther := fun j hj => by
      rw [show (st1.effects.set k ef1)[j]? = st1.effects[j]? from
        List.getElem?_set_ne (fun h => hj h.symm), OK.effs]
    effSelfLog := by
      rw [show shallowEval { st1 with effects := st1.effects.set k ef1 } ef.expr = v from
        hsh.trans OK.vEq.symm]
      simp [RState.effLog, hgetk, hef1, hef]
    effSelfRuns := by
      simp [RState.effRuns, hgetk, hef1, hef]
    effSelfDisposed := by
      simp [RState.effDisposed, hgetk, hef1]
      exact hd
    effSelfExpr := by simp [RState.effExpr, hgetk, hef1]
    effSelfWrites := by simp [RState.effWrites, hgetk, hef1]
    readsClean := fun m hm => OK.readsClean m hm
    wf := fun h => @WF_congr st1 _ ⟨OK.invPres h.2 h.1, OK.ccPres h.2⟩ rfl rfl }

lemma effLog_congr {st st' : RState} {k : Nat}
    (h : st'.effects[k]? = st.effects[k]?) : st'.effLog k = st.effLog k := by
  simp [RState.effLog, h]

lemma effRuns_congr {st st' : RState} {k : Nat}
    (h : st'.effects[k]? = st.effects[k]?) : st'.effRuns k = st.effRuns k := by
  simp [RState.effRuns, h]

lemma effExpr_congr {st st' : RState} {k : Nat}
    (h : st'.effects[k]? = st.effects[k]?) : st'.effExpr k = st.effExpr k := by
  simp [RState.effExpr, h]

lemma effDisposed_congr {st st' : RState} {k : Nat}
    (h : st'.effects[k]? = st.effects[k]?) : st'.effDisposed k = st.effDisposed k := by
  simp [RState.effDisposed, h]

/-- What processing a queue snapshot of write-free live Effects does. -/
structure FlushOut (st stF : RState) (q : List Nat) : Prop where
  wf : WF stF
  sigs : stF.signals = st.signals
  len : stF.computeds.length = st.computeds.length
  exprs : ∀ j, stF.cexpr j = st.cexpr j
  cleanMono : ∀ j, st.isClean j → stF.isClean j
  cleanCache : ∀ j, st.isClean j → stF.cacheOf j = st.cacheOf j
  que : stF.queue = st.queue
  pend : stF.pending = st.pending
  infl : stF.inFlush = st.inFlush
  effLen : stF.effects.length = st.effects.length
  effOther : ∀ j, j ∉ q → stF.effects[j]? = st.effects[j]?
  effRun : ∀ k ∈ q, stF.effLog k = st.effLog k ++ [shallowEval stF (st.effExpr k)] ∧
    stF.effRuns k = st.effRuns k + 1 ∧
    (∀ m, Src.c m ∈ staticReads (st.effExpr k) → stF.isClean m)

theorem flushFold_spec (rank : Nat → Nat) :
    ∀ (q : List Nat) (st : RState), WF st → TopoRank st rank → q.Nodup →
      (∀ k ∈ q, ∃ ef, st.effects[k]? = some ef ∧ ef.disposed = false ∧ ef.writes = []) →
      FlushOut st (q.foldl runEffect st) q := by
  intro q
  induction q with
  | nil =>
    intro st hwf _ _ _
    exact {
      wf := hwf
      sigs := rfl
      len := rfl
      exprs := fun _ => rfl
      cleanMono := fun _ h => h
      cleanCache := fun _ _ => rfl
      que := rfl
      pend := rfl
      infl := rfl
      effLen := rfl
      effOther := fun _ _ => rfl
      effRun := fun k hk => absurd hk (List.not_mem_nil k) }
  | cons k q ihq =>
    intro st hwf htr hnd hval
    obtain ⟨ef, hef, hd, hw⟩ := hval k (List.mem_cons_self k q)
    have R := runEffect_spec rank htr hef hd hw
    have hndq : q.Nodup := (List.nodup_cons.1 hnd).2
    have hknq : k ∉ q := (List.nodup_cons.1 hnd).1
    have hvalq : ∀ k' ∈ q, ∃ ef', (runEffect st k).effects[k']? = some ef' ∧
        ef'.disposed = false ∧ ef'.writes = [] := by
      intro k' hk'
      obtain ⟨ef', he', hd', hw'⟩ := hval k' (List.mem_cons_of_mem k hk')
      refine ⟨ef', ?_, hd', hw'⟩
      rw [R.effOther k' (fun h => hknq (h ▸ hk'))]
      exact he'
    have htr' : TopoRank (runEffect st k) rank := toporank_transfer R.len R.exprs htr
    have IH := ihq (runEffect st k) (R.wf hwf) htr' hndq hvalq
    show FlushOut st (q.foldl runEffect (runEffect st k)) (k :: q)
    have hexprExt : ∀ k', k' ≠ k → (runEffect st k).effExpr k' = st.effExpr k' :=
      fun k' hne => effExpr_congr (R.effOther k' hne)
    refine {
      wf := IH.wf
      sigs := IH.sigs.trans R.sigs
      len := IH.len.trans R.len
      exprs := fun j => (IH.exprs j).trans (R.exprs j)
      cleanMono := fun j hj => IH.cleanMono j (R.cleanMono j hj)
      cleanCache := fun j hj => (IH.cleanCache j (R.cleanMono j hj)).trans (R.cleanCache j hj)
      que := IH.que.trans R.que
      pend := IH.pend.trans R.pend
      infl := IH.infl.trans R.infl
      effLen := IH.effLen.trans R.effLen
      effOther := fun j hj => by
        have hj1 : j ∉ q := fun h => hj (List.mem_cons_of_mem k h)
        have hj2 : j ≠ k := fun h => hj (h ▸ List.mem_cons_self k q)
        rw [IH.effOther j hj1, R.effOther j hj2]
      effRun := fun k' hk' => ?_ }
    rcases List.mem_cons.1 hk' with rfl | hk'
    · -- the head effect
      have hentry := IH.effOther k' hknq
      have hexpr : st.effExpr k' = ef.expr := by simp [RState.effExpr, hef]
      have hshF : shallowEval (q.foldl runEffect (runEffect st k')) ef.expr =
          shallowEval (runEffect st k') ef.expr := by
        refine shallow_congr (fun i _ => sigVal_congr IH.sigs i) (fun m hm => ?_)
        exact IH.cleanCache m (R.readsClean m hm)
      refine ⟨?_, ?_, ?_⟩
      · rw [effLog_congr hentry, R.effSelfLog, hexpr, hshF]
      · rw [effRuns_congr hentry, R.effSelfRuns]
      · intro m hm
        rw [hexpr] at hm
        exact IH.cleanMono m (R.readsClean m hm)
    · -- an effect deeper in the queue
      have hne : k' ≠ k := fun h => hknq (h ▸ hk')
      obtain ⟨hl, hr, hc⟩ := IH.effRun k' hk'
      have hentry := R.effOther k' hne
      refine ⟨?_, ?_, ?_⟩
      · rw [hl, effLog_congr hentry, effExpr_congr hentry]
      · rw [hr, effRuns_congr hentry]
      · intro m hm
        exact hc m (by rw [effExpr_congr hentry]; exact hm)

/-! Run counting and disposal freezing, for the scheduler claims. -/

lemma applyWrites_entry (ws : List (Nat × Int)) (st : RState) (k : Nat) :
    (applyWrites st ws).effects[k]? = st.effects[k]? := by
  rw [applyWrites_effects]

lemma runEffect_runs_cases (st : RState) (j k : Nat) :
    (runEffect st j).effRuns k = st.effRuns k ∨
      (j = k ∧ (runEffect st j).effRuns k = st.effRuns k + 1) := by
  unfold runEffect
  cases hef : st.effects[j]? with
  | none => exact Or.inl rfl
  | some ef =>
    simp only []
    by_cases hd : ef.disposed = true
    · rw [if_pos hd]; exact Or.inl rfl
    · rw [if_neg hd]
      cases hev : evalE (fuelOf st) [] st ef.expr with
      | error e => exact Or.inl rfl
      | ok r =>
        obtain ⟨v, ds, st1⟩ := r
        have OK := evalE_ok_spec _ _ _ _ _ _ _ hev
        have hjlen : j < st.effects.length := by
          by_contra hge
          rw [List.getElem?_eq_none (Nat.le_of_not_lt hge)] at hef
          exact Option.noConfusion hef
        have hjlen1 : j < st1.effects.length := by rw [OK.effs]; exact hjlen
        by_cases hjk : j = k
        · refine Or.inr ⟨hjk, ?_⟩
          rw [effRuns_congr (applyWrites_entry _ _ _)]
          rw [← hjk]
          simp [RState.effRuns, List.getElem?_set_self hjlen1, hef]
        · refine Or.inl ?_
          rw [effRuns_congr (applyWrites_entry _ _ _)]
          refine effRuns_congr ?_
          rw [List.getElem?_set_ne hjk, OK.effs]

lemma foldRuns_other : ∀ (q : List Nat) (st : RState) (k : Nat), k ∉ q →
    (q.foldl runEffect st).effRuns k = st.effRuns k := by
  intro q
  induction q with
  | nil => intro st k _; rfl
  | cons j q ihq =>
    intro st k hk
    have hjk : j ≠ k := fun h => hk (h ▸ List.mem_cons_self j q)
    have hkq : k ∉ q := fun h => hk (List.mem_cons_of_mem j h)
    show (q.foldl runEffect (runEffect st j)).effRuns k = _
    rw [ihq _ k hkq]
    rcases runEffect_runs_cases st j k with h | ⟨hjk', _⟩
    · exact h
    · exact absurd hjk' hjk

lemma foldRuns_le : ∀ (q : List Nat) (st : RState) (k : Nat), q.Nodup →
    (q.foldl runEffect st).effRuns k ≤ st.effRuns k + (if k ∈ q then 1 else 0) := by
  intro q
  induction q with
  | nil => intro st k _; simp
  | cons j q ihq =>
    intro st k hnd
    show (q.foldl runEffect (runEffect st j)).effRuns k ≤ _
    rcases runEffect_runs_cases st j k with h | ⟨hjk, h⟩
    · have h2 := ihq (runEffect st j) k (List.nodup_cons.1 hnd).2
      rw [h] at h2
      refine h2.trans (Nat.add_le_add_left ?_ _)
      by_cases hkq : k ∈ q
      · rw [if_pos hkq, if_pos (List.mem_cons_of_mem j hkq)]
      · rw [if_neg hkq]
        exact Nat.zero_le _
    · have hknq : k ∉ q := by
        rw [← hjk]
        exact (List.nodup_cons.1 hnd).1
      rw [foldRuns_other q _ k hknq, h,
        if_pos (show k ∈ j :: q by rw [← hjk]; exact List.mem_cons_self j q)]

lemma runEffect_disposed_frozen {st : RState} {k : Nat}
    (hd : st.effDisposed k = true) (j : Nat) :
    (runEffect st j).effects[k]? = st.effects[k]? := by
  unfold runEffect
  cases hef : st.effects[j]? with
  | none => rfl
  | some ef =>
    simp only []
    by_cases hdj : ef.disposed = true
    · rw [if_pos hdj]
    · rw [if_neg hdj]
      have hjk : j ≠ k := by
        rintro rfl
        rw [show st.effDisposed j = ef.disposed by simp [RState.effDisposed, hef]] at hd
        exact hdj hd
      cases hev : evalE (fuelOf st) [] st ef.expr with
      | error e => rfl
      | ok r =>
        obtain ⟨v, ds, st1⟩ := r
        have OK := evalE_ok_spec _ _ _ _ _ _ _ hev
        rw [applyWrites_entry]
        show (st1.effects.set j _)[k]? = _
        rw [List.getElem?_set_ne hjk, OK.effs]

lemma fold_disposed_frozen {k : Nat} : ∀ (q : List Nat) (st : RState),
    st.effDisposed k = true → (q.foldl runEffect st).effects[k]? = st.effects[k]? := by
  intro q
  induction q with
  | nil => intro st _; rfl
  | cons j q ihq =>
    intro st hdp
    show (q.foldl runEffect (runEffect st j)).effects[k]? = _
    have hstep := runEffect_disposed_frozen hdp j
    rw [ihq _ (by rw [effDisposed_congr hstep]; exact hdp), hstep]

lemma readComputed_effects {st : RState} {i : Nat} {v : Int} {st1 : RState}
    (hr : readComputed st i = .ok (v, st1)) : st1.effects = st.effects := by
  unfold readComputed at hr
  cases hev : evalE (fuelOf st) [] st (.readComp i) with
  | error e => rw [hev] at hr; exact absurd hr (by simp)
  | ok r =>
    obtain ⟨v', ds, st1'⟩ := r
    rw [hev] at hr
    simp only [Except.ok.injEq, Prod.mk.injEq] at hr
    obtain ⟨_, hst⟩ := hr
    rw [← hst]
    exact (evalE_ok_spec _ _ _ _ _ _ _ hev).effs

lemma op_preserves_frozen {k : Nat} (op : Op) {st : RState}
    (hd : st.effDisposed k = true) :
    (applyOp st op).effDisposed k = true ∧
      (applyOp st op).effRuns k = st.effRuns k ∧
      (applyOp st op).effLog k = st.effLog k := by
  cases op with
  | write i v =>
    have h : (writeSig st i v).effects[k]? = st.effects[k]? := by
      rw [writeSig_effects]
    exact ⟨by rw [show applyOp st (Op.write i v) = writeSig st i v from rfl,
        effDisposed_congr h]; exact hd,
      effRuns_congr h, effLog_congr h⟩
  | doFlush =>
    show (flush st).effDisposed k = true ∧ _
    have hfr : (st.queue.foldl runEffect { st with queue := [], inFlush := true }).effects[k]? =
        st.effects[k]? := by
      rw [fold_disposed_frozen st.queue _ (by show st.effDisposed k = true; exact hd)]
    have h : (flush st).effects[k]? = st.effects[k]? := hfr
    exact ⟨by rw [effDisposed_congr h]; exact hd, effRuns_congr h, effLog_congr h⟩
  | readC i =>
    cases hr : readComputed st i with
    | error e =>
      have h : applyOp st (Op.readC i) = st := by
        show (match readComputed st i with
          | .error _ => st
          | .ok (_, st1) => st1) = st
        rw [hr]
      rw [h]
      exact ⟨hd, rfl, rfl⟩
    | ok r =>
      obtain ⟨v, st1⟩ := r
      have h : applyOp st (Op.readC i) = st1 := by
        show (match readComputed st i with
          | .error _ => st
          | .ok (_, st1) => st1) = st1
        rw [hr]
      have he : st1.effects = st.effects := readComputed_effects hr
      have hek : st1.effects[k]? = st.effects[k]? := by rw [he]
      rw [h]
      exact ⟨by rw [effDisposed_congr hek]; exact hd,
        effRuns_congr hek, effLog_congr hek⟩
  | dispose j =>
    have hop : applyOp st (Op.dispose j) = disposeEffect st j := rfl
    rw [hop]
    unfold disposeEffect
    cases hef : st.effects[j]? with
    | none => exact ⟨hd, rfl, rfl⟩
    | some ef =>
      simp only []
      have hjlen : j < st.effects.length := by
        by_contra hge
        rw [List.getElem?_eq_none (Nat.le_of_not_lt hge)] at hef
        exact Option.noConfusion hef
      by_cases hjk : j = k
      · have hset : (st.effects.set j { ef with disposed := true, deps := [] })[k]? =
            some { ef with disposed := true, deps := [] } := by
          rw [← hjk]
          exact List.getElem?_set_self hjlen
        have hefk : st.effects[k]? = some ef := by rw [← hjk]; exact hef
        refine ⟨?_, ?_, ?_⟩
        · simp [RState.effDisposed, hset]
        · simp [RState.effRuns, hset, hefk]
        · simp [RState.effLog, hset, hefk]
      · have hset : (st.effects.set j { ef with disposed := true, deps := [] })[k]? =
            st.effects[k]? := List.getElem?_set_ne hjk
        refine ⟨?_, effRuns_congr hset, effLog_congr hset⟩
        rw [effDisposed_congr hset]
        exact hd

lemma ops_frozen {k : Nat} : ∀ (ops : List Op) (st : RState),
    st.effDisposed k = true →
    (applyOps st ops).effDisposed k = true ∧
      (applyOps st ops).effRuns k = st.effRuns k ∧
      (applyOps st ops).effLog k = st.effLog k := by
  intro ops
  induction ops with
  | nil => intro st hd; exact ⟨hd, rfl, rfl⟩
  | cons op ops ihops =>
    intro st hd
    obtain ⟨h1, h2, h3⟩ := op_preserves_frozen op hd
    obtain ⟨g1, g2, g3⟩ := ihops (applyOp st op) h1
    exact ⟨g1, by rw [show applyOps st (op :: ops) = applyOps (applyOp st op) ops from rfl, g2, h2],
      by rw [show applyOps st (op :: ops) = applyOps (applyOp st op) ops from rfl, g3, h3]⟩

lemma disposeEffect_disposed (st : RState) (k : Nat) :
    (disposeEffect st k).effDisposed k = true := by
  unfold disposeEffect
  cases hef : st.effects[k]? with
  | none => simp [RState.effDisposed, hef]
  | some ef =>
    have hklen : k < st.effects.length := by
      by_contra hge
      rw [List.getElem?_eq_none (Nat.le_of_not_lt hge)] at hef
      exact Option.noConfusion hef
    simp [RState.effDisposed, List.getElem?_set_self hklen]

lemma disposeEffect_idem (st : RState) (k : Nat) :
    disposeEffect (disposeEffect st k) k = disposeEffect st k := by
  unfold disposeEffect
  cases hef : st.effects[k]? with
  | none => rw [hef]
  | some ef =>
    simp only []
    have hklen : k < st.effects.length := by
      by_contra hge
      rw [List.getElem?_eq_none (Nat.le_of_not_lt hge)] at hef
      exact Option.noConfusion hef
    have hset : (st.effects.set k { ef with disposed := true, deps := [] })[k]? =
        some { ef with disposed := true, deps := [] } := List.getElem?_set_self hklen
    rw [hset]
    simp [List.set_set]

/-- Everything a flush guarantees when the queued Effects are live and
write-free: the whole queue snapshot is processed, each queued Effect logs
exactly one value, and that value is the settled evaluation of its body
against the final state. -/
theorem flush_run_spec (rank : Nat → Nat) {st : RState} (hwf : WF st)
    (htr : TopoRank st rank) (hnd : st.queue.Nodup)
    (hval : ∀ k ∈ st.queue, ∃ ef, st.effects[k]? = some ef ∧
      ef.disposed = false ∧ ef.writes = []) :
    WF (flush st) ∧ (flush st).queue = st.pending ∧ (flush st).pending = [] ∧
    (flush st).signals = st.signals ∧
    (∀ j, j ∉ st.queue → (flush st).effects[j]? = st.effects[j]?) ∧
    (∀ k ∈ st.queue,
      (flush st).effLog k = st.effLog k ++ [shallowEval (flush st) (st.effExpr k)] ∧
      (flush st).effRuns k = st.effRuns k + 1 ∧
      (∀ m, Src.c m ∈ staticReads (st.effExpr k) → (flush st).isClean m)) := by
  have hwf1 : WF ({ st with queue := [], inFlush := true } : RState) :=
    @WF_congr st _ hwf rfl rfl
  have htr1 : TopoRank ({ st with queue := [], inFlush := true } : RState) rank :=
    toporank_transfer rfl (fun _ => rfl) htr
  set stp : RState := { st with queue := [], inFlush := true } with hstp
  have F := flushFold_spec rank st.queue stp hwf1 htr1 hnd (fun k hk => hval k hk)
  set st2 := st.queue.foldl runEffect stp with hst2
  have hfl : flush st = { st2 with inFlush := false, queue := st2.pending, pending := [] } := rfl
  rw [hfl]
  have hsh2 : ∀ e, shallowEval { st2 with inFlush := false, queue := st2.pending, pending := [] } e = shallowEval st2 e :=
    fun e => shallow_congr (fun i _ => sigVal_congr rfl i) (fun m _ => rfl)
  refine ⟨@WF_congr _ _ F.wf rfl rfl, F.pend, rfl, F.sigs, fun j hj => F.effOther j hj,
    fun k hk => ?_⟩
  obtain ⟨hl, hr, hc⟩ := F.effRun k hk
  exact ⟨by rw [hsh2]; exact hl, hr, fun m hm => hc m hm⟩

/-! Queue facts across a batch of writes. -/

lemma writeSig_queue_nodup {st : RState} (h : st.queue.Nodup) (i : Nat) (v : Int) :
    (writeSig st i v).queue.Nodup := by
  rcases writeSig_queue_cases st i v with hq | hq <;> rw [hq]
  · exact h
  · exact nodup_enqueueAll h _

lemma writeSig_queue_valid {st : RState} (i : Nat) (v : Int) :
    ∀ k ∈ (writeSig st i v).queue,
      k ∈ st.queue ∨ (k < st.effects.length ∧ st.effDisposed k = false) := by
  rcases writeSig_queue_cases st i v with hq | hq <;> rw [hq]
  · exact fun k hk => Or.inl hk
  · intro k hk
    rcases mem_enqueueAll.1 hk with hk | hk
    · exact Or.inl hk
    · right
      unfold affectedEffects at hk
      rw [List.mem_filter] at hk
      obtain ⟨hkr, hkf⟩ := hk
      refine ⟨List.mem_range.1 hkr, ?_⟩
      cases hef : st.effects[k]? with
      | none => rw [hef] at hkf; exact absurd hkf (by simp)
      | some ef =>
        rw [hef] at hkf
        simp only [Bool.and_eq_true, Bool.not_eq_true'] at hkf
        simp [RState.effDisposed, hef, hkf.1]

lemma applyWrites_queue_nodup : ∀ (ws : List (Nat × Int)) {st : RState},
    st.queue.Nodup → (applyWrites st ws).queue.Nodup := by
  intro ws
  induction ws with
  | nil => intro st h; exact h
  | cons w ws ihw =>
    intro st h
    obtain ⟨i, v⟩ := w
    exact ihw (writeSig_queue_nodup h i v)

lemma applyWrites_queue_valid : ∀ (ws : List (Nat × Int)) (st : RState),
    ∀ k ∈ (applyWrites st ws).queue,
      k ∈ st.queue ∨ (k < st.effects.length ∧ st.effDisposed k = false) := by
  intro ws
  induction ws with
  | nil => intro st k hk; exact Or.inl hk
  | cons w ws ihw =>
    intro st k hk
    obtain ⟨i, v⟩ := w
    rcases ihw (writeSig st i v) k hk with hk1 | ⟨hk1, hk2⟩
    · rcases writeSig_queue_valid i v k hk1 with h | h
      · exact Or.inl h
      · exact Or.inr h
    · refine Or.inr ⟨?_, ?_⟩
      · rw [← show (writeSig st i v).effects = st.effects from writeSig_effects st i v]
        exact hk1
      · rw [← effDisposed_congr (show (writeSig st i v).effects[k]? = st.effects[k]? by
          rw [writeSig_effects])]
        exact hk2

lemma writeSig_enqueues {st : RState} {i : Nat} {v : Int} {sg : Signal}
    (hsg : st.signals[i]? = some sg) (he : sg.policy.eqv sg.value v = false)
    (hf : st.inFlush = false) {k : Nat} (hk : k < st.effects.length)
    (hd : st.effDisposed k = false) (hdep : Src.s i ∈ st.effDeps k) :
    k ∈ (writeSig st i v).queue := by
  rw [writeSig_queue_chr hsg he hf]
  refine mem_enqueueAll.2 (Or.inr ?_)
  unfold affectedEffects
  rw [List.mem_filter]
  refine ⟨List.mem_range.2 hk, ?_⟩
  cases hef : st.effects[k]? with
  | none =>
    rw [List.getElem?_eq_none_iff] at hef
    omega
  | some ef =>
    have hd' : ef.disposed = false := by
      rw [show st.effDisposed k = ef.disposed by simp [RState.effDisposed, hef]] at hd
      exact hd
    have hdep' : Src.s i ∈ ef.deps := by
      rw [show st.effDeps k = ef.deps by simp [RState.effDeps, hef]] at hdep
      exact hdep
    simp [hd', hdep']

lemma flush_runs_other {st : RState} {k : Nat} (hk : k ∉ st.queue) :
    (flush st).effRuns k = st.effRuns k := by
  have h : (flush st).effRuns k =
      (st.queue.foldl runEffect { st with queue := [], inFlush := true }).effRuns k := rfl
  rw [h, foldRuns_other st.queue _ k hk]
  rfl

lemma flush_runs_le {st : RState} (k : Nat) (hnd : st.queue.Nodup) :
    (flush st).effRuns k ≤ st.effRuns k + (if k ∈ st.queue then 1 else 0) := by
  have h : (flush st).effRuns k =
      (st.queue.foldl runEffect { st with queue := [], inFlush := true }).effRuns k := rfl
  rw [h]
  exact foldRuns_le st.queue _ k hnd

/-- A decidable queue-validity condition implies the entry form. -/
lemma queue_valid_entries {st : RState}
    (h : ∀ k ∈ st.queue, k < st.effects.length ∧ st.effDisposed k = false ∧
      st.effWrites k = []) :
    ∀ k ∈ st.queue, ∃ ef, st.effects[k]? = some ef ∧ ef.disposed = false ∧
      ef.writes = [] := by
  intro k hk
  obtain ⟨h1, h2, h3⟩ := h k hk
  obtain ⟨ef, hef⟩ : ∃ ef, st.effects[k]? = some ef := by
    rw [List.getElem?_eq_getElem h1]; exact ⟨_, rfl⟩
  refine ⟨ef, hef, ?_, ?_⟩
  · rw [show st.effDisposed k = ef.disposed by simp [RState.effDisposed, hef]] at h2
    exact h2
  · rw [show st.effWrites k = ef.writes by simp [RState.effWrites, hef]] at h3
    exact h3

/-! Concrete states used by the scenarios and witnesses. -/

/-- The empty reactive graph. -/
def emptyState : RState := ⟨[], [], [], [], [], false⟩

/-- Scenario state for laziness: a Signal holding 1. -/
def lazyA : RState := (createSignal emptyState 1 .structural).1

/-- ... plus the Computed deriving signal times two. -/
def lazyB : RState := (createComputed lazyA (.bin .mul (.readSig 0) (.const 2))).1

/-- State after the first read of the Computed. -/
def lazyC : RState :=
  match readComputed lazyB 0 with
  | .ok (_, s) => s
  | .error _ => lazyB

/-- State after writing 5 to the Signal. -/
def lazyD : RState := writeSig lazyC 0 5

/-- State after the second read of the Computed. -/
def lazyE : RState :=
  match readComputed lazyD 0 with
  | .ok (_, s) => s
  | .error _ => lazyD

/-- A small well-formed state: signal 0 holds 1; computed 0 derives twice
the signal and holds a settled cache of 2. -/
def wfDemo : RState :=
  ⟨[⟨1, .structural⟩],
   [⟨.bin .mul (.readSig 0) (.const 2), 2, false, [Src.s 0], 1⟩],
   [], [], [], false⟩

/-- A freshly constructed two-Computed cycle: each reads the other. -/
def cyclicDemo : RState :=
  ⟨[], [⟨.readComp 1, 0, true, [], 0⟩, ⟨.readComp 0, 0, true, [], 0⟩],
   [], [], [], false⟩

/-- Coalescing scenario base: a Signal holding 0 and one Effect logging
the Signal's value (its creation run has already logged 0). -/
def coalesceBase : RState :=
  (createEffect (createSignal emptyState 0 .structural).1 (.readSig 0) []).1

/-- Coalescing scenario after the batch s.set(1); s.set(2). -/
def coalesceWritten : RState := writeSig (writeSig coalesceBase 0 1) 0 2

/-- In-flush write scenario: effect 0 observes signal 0 and writes 42 to
signal 1; effect 1 observes signal 1; effect 0 is queued. -/
def deferDemo : RState :=
  ⟨[⟨0, .structural⟩, ⟨0, .structural⟩], [],
   [⟨.readSig 0, [(1, 42)], [Src.s 0], false, [], 0⟩,
    ⟨.readSig 1, [], [Src.s 1], false, [], 0⟩],
   [0], [], false⟩

/-- A state already inside a flush, for exercising the write-deferral
rule directly. -/
def inFlushDemo : RState :=
  ⟨[⟨0, .structural⟩, ⟨0, .structural⟩], [],
   [⟨.readSig 0, [], [Src.s 0], false, [], 0⟩,
    ⟨.readSig 1, [], [Src.s 1], false, [], 0⟩],
   [], [], true⟩

/-- C2: for every Computed, whenever its dirty flag is false its cached
value equals re-evaluating its derivation against the current values of
its dependencies, and this invariant (together with clean-closedness) is
preserved by every operation of the system: writes, reads and flushes;
moreover immediately after a successful read of a Computed the Computed is
clean and its cache equals that re-evaluation. -/
theorem c2_cache_correctness_invariant (st : RState) (hwf : WF st) :
    (∀ i v, WF (writeSig st i v)) ∧
    (∀ (i : Nat) (v : Int) (st1 : RState), readComputed st i = Except.ok (v, st1) →
      WF st1 ∧ st1.isClean i ∧ st1.cacheOf i = shallowEval st1 (st1.cexpr i)) ∧
    WF (flush st) := by
  refine ⟨fun i v => writeSig_WF hwf i v, fun i v st1 hr => ?_, flush_WF hwf⟩
  have hwf1 : WF st1 := readComputed_WF hwf hr
  unfold readComputed at hr
  cases hev : evalE (fuelOf st) [] st (.readComp i) with
  | error e => rw [hev] at hr; exact absurd hr (by simp)
  | ok r =>
    obtain ⟨v', ds, st1'⟩ := r
    rw [hev] at hr
    simp only [Except.ok.injEq, Prod.mk.injEq] at hr
    obtain ⟨hveq, hsteq⟩ := hr
    have OK := evalE_ok_spec _ _ _ _ _ _ _ hev
    have hclean : st1.isClean i := by
      rw [← hsteq]
      exact OK.readsClean i (by simp [staticReads])
    refine ⟨hwf1, hclean, ?_⟩
    by_cases hi : i < st1.computeds.length
    · exact (hwf1.1 i hi hclean).1
    · have hnone : st1.computeds[i]? = none :=
        List.getElem?_eq_none (Nat.le_of_not_lt hi)
      rw [cacheOf_none hnone, cexpr_none hnone]
      rfl

/-- C2 witness. -/
theorem c2_cache_correctness_invariant_w :
    WF wfDemo ∧ WF (writeSig wfDemo 0 3) :=
  ⟨by decide, (c2_cache_correctness_invariant wfDemo (by decide)).1 0 3⟩

/-- C3: recomputation is lazy: a Signal write never invokes any Computed's
derivation function (the invocation counters of all Computeds are
untouched by writeSig); in the scenario s = createSignal 1,
c = createComputed (s.read times 2), the first read returns 2 after one
derivation run, the write of 5 marks the Computed dirty without running
the derivation, and the second read returns 10 with the derivation having
run exactly twice in total. -/
theorem c3_lazy_recomputation :
    (∀ (st : RState) (i : Nat) (v : Int) (j : Nat),
      (writeSig st i v).crunsOf j = st.crunsOf j) ∧
    readComputed lazyB 0 = Except.ok (2, lazyC) ∧ lazyC.crunsOf 0 = 1 ∧
    lazyD.crunsOf 0 = 1 ∧ lazyD.dirtyOf 0 = true ∧
    readComputed lazyD 0 = Except.ok (10, lazyE) ∧ lazyE.crunsOf 0 = 2 :=
  ⟨fun st i v j => writeSig_crunsOf st i v j, by rfl, by decide, by decide,
    by decide, by rfl, by decide⟩

/-- C4: a write whose value is policy-equal to the current one is a
complete no-op: the state is unchanged, so no dependent is marked dirty,
nothing is enqueued, no Computed recomputes and no Effect re-runs. -/
theorem c4_noop_write (st : RState) (i : Nat) (v : Int) (sg : Signal)
    (hsg : st.signals[i]? = some sg) (he : sg.policy.eqv sg.value v = true) :
    writeSig st i v = st ∧
    (∀ j, (writeSig st i v).dirtyOf j = st.dirtyOf j) ∧
    (writeSig st i v).queue = st.queue ∧
    (writeSig st i v).pending = st.pending ∧
    (∀ j, (writeSig st i v).crunsOf j = st.crunsOf j) ∧
    (∀ k, (writeSig st i v).effRuns k = st.effRuns k) := by
  have h := writeSig_noop hsg he
  exact ⟨h, fun j => by rw [h], by rw [h], by rw [h], fun j => by rw [h],
    fun k => by rw [h]⟩

/-- C4 witness: writing 1 over 1 under structural equality. -/
theorem c4_noop_write_w : writeSig wfDemo 0 1 = wfDemo :=
  (c4_noop_write wfDemo 0 1 ⟨1, .structural⟩ (by decide) (by decide)).1

/-- C5: on a freshly constructed graph (all Computeds dirty) in which a
Computed transitively reads itself, reading that Computed terminates with
CyclicDependencyError instead of looping: the re-entrancy guard fires. -/
theorem c5_cyclic_dependency_error (st : RState) (i : Nat)
    (hdirty : ∀ j, j < st.computeds.length → st.dirtyOf j = true)
    (hlt : i < st.computeds.length) (hcyc : Reach st i i) :
    readComputed st i = Except.error RError.cyclicDependency := by
  have hcc : CleanClosed st := by
    intro j hj hclean
    exfalso
    rw [RState.isClean, hdirty j hj] at hclean
    exact Bool.noConfusion hclean
  obtain ⟨co, hco⟩ : ∃ co, st.computeds[i]? = some co := by
    rw [List.getElem?_eq_getElem hlt]; exact ⟨_, rfl⟩
  have hd : co.dirty = true := by
    rw [← dirtyOf_some hco]
    exact hdirty i hlt
  cases hsub : evalE st.computeds.length [i] st co.expr with
  | error e =>
    cases e
    unfold readComputed fuelOf
    simp [evalE, evalStep, hco, hd, hsub]
  | ok r =>
    exfalso
    obtain ⟨v, ds, stA⟩ := r
    have OK := evalE_ok_spec _ _ _ _ _ _ _ hsub
    have hre : EReach st co.expr i := by
      cases hcyc with
      | base hm =>
        rw [cexpr_some hco] at hm
        exact Or.inl hm
      | trans hm hr =>
        rw [cexpr_some hco] at hm
        exact Or.inr ⟨_, hm, hr⟩
    have h1 : stA.isClean i := OK.reachClean hcc i hre
    have h2 : st.isClean i := OK.stackDirty i (List.mem_cons_self i []) h1
    rw [RState.isClean, hdirty i hlt] at h2
    exact Bool.noConfusion h2

/-- C5 witness: the two-Computed cycle raises the error. -/
theorem c5_cyclic_dependency_error_w :
    (∀ j, j < cyclicDemo.computeds.length → cyclicDemo.dirtyOf j = true) ∧
    0 < cyclicDemo.computeds.length ∧ Reach cyclicDemo 0 0 ∧
    readComputed cyclicDemo 0 = Except.error RError.cyclicDependency := by
  have h1 : ∀ j, j < cyclicDemo.computeds.length → cyclicDemo.dirtyOf j = true := by
    decide
  have h2 : 0 < cyclicDemo.computeds.length := by decide
  have h3 : Reach cyclicDemo 0 0 :=
    Reach.trans (show Src.c 1 ∈ staticReads (cyclicDemo.cexpr 0) by decide)
      (Reach.base (show Src.c 0 ∈ staticReads (cyclicDemo.cexpr 1) by decide))
  exact ⟨h1, h2, h3, c5_cyclic_dependency_error cyclicDemo 0 h1 h2 h3⟩

/-- C6: after dispose, an Effect's run closure is never invoked again and
its log never grows, no matter what operations follow (writes, flushes,
reads, further disposals), and dispose is idempotent. -/
theorem c6_dispose_terminal (st : RState) (k : Nat) (ops : List Op) :
    (applyOps (disposeEffect st k) ops).effRuns k = (disposeEffect st k).effRuns k ∧
    (applyOps (disposeEffect st k) ops).effLog k = (disposeEffect st k).effLog k ∧
    (applyOps (disposeEffect st k) ops).effDisposed k = true ∧
    disposeEffect (disposeEffect st k) k = disposeEffect st k := by
  obtain ⟨h1, h2, h3⟩ := ops_frozen ops (disposeEffect st k) (disposeEffect_disposed st k)
  exact ⟨h2, h3, h1, disposeEffect_idem st k⟩

/-- C1: within one batch (a sequence of writes followed by one flush),
every Effect that was enqueued runs exactly once at the flush and its
single new log entry is the evaluation of its body against the final
settled state; an Effect not enqueued does not run; a write that changes
a Signal an Effect depends on does enqueue that Effect; and in the
concrete scenario (signal 0, effect logging it, set 1 then set 2 in one
batch) the log gains exactly one entry, 2. -/
theorem c1_batch_coalescing (st : RState) (rank : Nat → Nat)
    (ws : List (Nat × Int)) (k : Nat)
    (hwf : WF st) (htr : TopoRank st rank)
    (hq : st.queue = []) (hf : st.inFlush = false)
    (hwr : ∀ j, j < st.effects.length → st.effWrites j = []) :
    (k ∈ (applyWrites st ws).queue →
      (flush (applyWrites st ws)).effRuns k = st.effRuns k + 1 ∧
      (flush (applyWrites st ws)).effLog k =
        st.effLog k ++ [shallowEval (flush (applyWrites st ws)) (st.effExpr k)]) ∧
    (k ∉ (applyWrites st ws).queue →
      (flush (applyWrites st ws)).effRuns k = st.effRuns k) ∧
    (∀ (i : Nat) (v : Int) (sg : Signal), st.signals[i]? = some sg →
      sg.policy.eqv sg.value v = false → k < st.effects.length →
      st.effDisposed k = false → Src.s i ∈ st.effDeps k →
      k ∈ (writeSig st i v).queue) ∧
    ((flush coalesceWritten).effLog 0 = [0, 2] ∧
      (flush coalesceWritten).effRuns 0 = 2 ∧ coalesceWritten.queue = [0]) := by
  have hwf1 : WF (applyWrites st ws) := applyWrites_WF ws hwf
  have htr1 : TopoRank (applyWrites st ws) rank :=
    toporank_transfer (applyWrites_len ws st) (applyWrites_cexpr ws st) htr
  have hnd1 : (applyWrites st ws).queue.Nodup :=
    applyWrites_queue_nodup ws (by rw [hq]; exact List.nodup_nil)
  have hval1 : ∀ k' ∈ (applyWrites st ws).queue,
      ∃ ef, (applyWrites st ws).effects[k']? = some ef ∧ ef.disposed = false ∧
        ef.writes = [] := by
    intro k' hk'
    rcases applyWrites_queue_valid ws st k' hk' with hk1 | ⟨hl, hd⟩
    · rw [hq] at hk1
      exact absurd hk1 (List.not_mem_nil k')
    · have hent : (applyWrites st ws).effects[k']? = st.effects[k']? := by
        rw [applyWrites_effects]
      obtain ⟨ef, hef⟩ : ∃ ef, st.effects[k']? = some ef := by
        rw [List.getElem?_eq_getElem hl]; exact ⟨_, rfl⟩
      refine ⟨ef, by rw [hent]; exact hef, ?_, ?_⟩
      · rw [show st.effDisposed k' = ef.disposed by simp [RState.effDisposed, hef]] at hd
        exact hd
      · have hwj := hwr k' hl
        rw [show st.effWrites k' = ef.writes by simp [RState.effWrites, hef]] at hwj
        exact hwj
  obtain ⟨hWFf, hqf, hpf, hsf, hof, hrun⟩ := flush_run_spec rank hwf1 htr1 hnd1 hval1
  have hent : ∀ j : Nat, (applyWrites st ws).effects[j]? = st.effects[j]? := by
    intro j
    rw [applyWrites_effects]
  refine ⟨fun hkq => ?_, fun hkq => ?_,
    fun i v sg hsg he hkl hkd hdep => writeSig_enqueues hsg he hf hkl hkd hdep,
    by decide, by decide, by decide⟩
  · obtain ⟨hl, hr, _⟩ := hrun k hkq
    constructor
    · rw [hr, effRuns_congr (hent k)]
    · rw [hl, effLog_congr (hent k), effExpr_congr (hent k)]
  · rw [flush_runs_other hkq, effRuns_congr (hent k)]

/-- C1 witness. -/
theorem c1_batch_coalescing_w :
    (flush (applyWrites coalesceBase [(0, 1), (0, 2)])).effRuns 0 =
      coalesceBase.effRuns 0 + 1 := by
  have h := c1_batch_coalescing coalesceBase (fun _ => 0) [(0, 1), (0, 2)] 0
    (by decide) (by decide) (by decide) (by decide) (by decide)
  exact (h.1 (by decide)).1

/-- C7: a flush whose queued Effects are live and write-free leaves the
system well-formed (so every clean Computed's cache equals re-deriving it
against current values), runs each queued Effect exactly once, and every
Computed an Effect's body reads is clean at the end of the flush, the
logged observation being the evaluation of that body against the final
settled state: no Effect ever observes a partially-updated dependency
chain. -/
theorem c7_flush_topological_order (st : RState) (rank : Nat → Nat)
    (hwf : WF st) (htr : TopoRank st rank) (hnd : st.queue.Nodup)
    (hval : ∀ k ∈ st.queue, k < st.effects.length ∧ st.effDisposed k = false ∧
      st.effWrites k = []) :
    WF (flush st) ∧
    ∀ k ∈ st.queue,
      (flush st).effLog k = st.effLog k ++ [shallowEval (flush st) (st.effExpr k)] ∧
      (flush st).effRuns k = st.effRuns k + 1 ∧
      (∀ m, Src.c m ∈ staticReads (st.effExpr k) → (flush st).isClean m) := by
  obtain ⟨h1, _, _, _, _, h6⟩ := flush_run_spec rank hwf htr hnd (queue_valid_entries hval)
  exact ⟨h1, h6⟩

/-- State for the C7 witness: a dirty Computed downstream of a written
signal, observed by the queued Effect. -/
def settleDemo : RState :=
  ⟨[⟨5, .structural⟩],
   [⟨.bin .mul (.readSig 0) (.const 2), 2, true, [Src.s 0], 1⟩],
   [⟨.readComp 0, [], [Src.c 0], false, [], 0⟩],
   [0], [], false⟩

/-- C7 witness. -/
theorem c7_flush_topological_order_w :
    WF (flush settleDemo) ∧
      (flush settleDemo).effRuns 0 = settleDemo.effRuns 0 + 1 := by
  have h := c7_flush_topological_order settleDemo (fun _ => 0)
    (by decide) (by decide) (by decide) (by decide)
  exact ⟨h.1, (h.2 0 (by decide)).2.1⟩

/-- C8: a Signal write issued while a flush is executing never touches the
current queue (it lands on the pending queue for the next flush); a flush
never runs an Effect that was not in its queue snapshot, and runs any
Effect at most once; in the scenario where queued effect 0 writes signal 1
read by effect 1, effect 1 does not run in the current flush, is queued
for the next one, and runs exactly once there, observing 42; writes before
the flush are coalesced into the single batch queue. -/
theorem c8_inflush_writes_deferred :
    (∀ (st : RState) (i : Nat) (v : Int), st.inFlush = true →
      (writeSig st i v).queue = st.queue) ∧
    (∀ (st : RState) (k : Nat), k ∉ st.queue →
      (flush st).effRuns k = st.effRuns k) ∧
    (∀ (st : RState) (k : Nat), st.queue.Nodup →
      (flush st).effRuns k ≤ st.effRuns k + (if k ∈ st.queue then 1 else 0)) ∧
    ((flush deferDemo).effRuns 0 = 1 ∧ (flush deferDemo).effRuns 1 = 0 ∧
      (flush deferDemo).queue = [1] ∧ (flush deferDemo).pending = [] ∧
      (flush (flush deferDemo)).effRuns 1 = 1 ∧
      (flush (flush deferDemo)).effLog 1 = [42]) := by
  refine ⟨fun st i v hf => writeSig_queue_of_inFlush hf i v,
    fun st k hk => flush_runs_other hk,
    fun st k hnd => flush_runs_le k hnd, by decide⟩

/-- C8 witness. -/
theorem c8_inflush_writes_deferred_w :
    (writeSig inFlushDemo 0 7).queue = inFlushDemo.queue ∧
    (flush deferDemo).effRuns 5 = deferDemo.effRuns 5 ∧
    (flush deferDemo).effRuns 0 ≤ deferDemo.effRuns 0 +
      (if 0 ∈ deferDemo.queue then 1 else 0) := by
  obtain ⟨h1, h2, h3, _⟩ := c8_inflush_writes_deferred
  exact ⟨h1 inFlushDemo 0 7 (by decide), h2 deferDemo 5 (by decide),
    h3 deferDemo 0 (by decide)⟩

end ReactiveCore

namespace DemoComponents

/-- The component state of OutsideZoneComponent
(src/app/cd-examples/outside-zone/outside-zone.component.ts, fields at
lines 17-21). -/
structure OutsideZoneComponent where
  insideZoneCounter : Int
  outsideZoneCounter : Int
  outsideZoneWithManualCounter : Int
  animationFrameCounter : Int
  animationId : Option Int
deriving DecidableEq, Repr

/-- The accumulation loop of heavyComputation: result starts at 0 and the
loop body result += i runs for i = 0, 1, ..., n-1 in ascending order
(lines 84-87 of the component). -/
def loopSum : Nat → Int
  | 0 => 0
  | n + 1 => loopSum n + n

lemma loopSum_zero : loopSum 0 = 0 := rfl

lemma loopSum_succ (n : Nat) : loopSum (n + 1) = loopSum n + (n : Int) := rfl

/-- heavyComputation (lines 81-96): runs the million-iteration loop and
stores result % 1000 into outsideZoneWithManualCounter.  The
runOutsideAngular wrapper, the change-detection trigger and the console
log have no effect on the component state. -/
def heavyComputation (c : OutsideZoneComponent) : OutsideZoneComponent :=
  { c with outsideZoneWithManualCounter := loopSum 1000000 % 1000 }

lemma loopSum_closed : ∀ n : Nat, 2 * loopSum n = (n : Int) * ((n : Int) - 1) := by
  intro n
  induction n with
  | zero => rw [loopSum_zero]; simp
  | succ n ihn =>
    have h2 : 2 * (loopSum n + (n : Int)) = 2 * loopSum n + 2 * (n : Int) := by ring
    rw [loopSum_succ, h2, ihn]
    push_cast
    ring

lemma loopSum_value : loopSum 1000000 = 499999500000 := by
  have h := loopSum_closed 1000000
  norm_num at h
  omega

attribute [irreducible] loopSum

/-- C9: heavyComputation always stores exactly 0, whatever the prior
component state: the loop sums the integers 0 through 999999, totalling
499999500000, and 499999500000 % 1000 = 0; every other field is left
unchanged. -/
theorem c9_heavy_computation_zero (c : OutsideZoneComponent) :
    (heavyComputation c).outsideZoneWithManualCounter = 0 ∧
    (heavyComputation c).insideZoneCounter = c.insideZoneCounter ∧
    (heavyComputation c).outsideZoneCounter = c.outsideZoneCounter ∧
    (heavyComputation c).animationFrameCounter = c.animationFrameCounter ∧
    (heavyComputation c).animationId = c.animationId ∧
    loopSum 1000000 = 499999500000 := by
  obtain ⟨a1, a2, a3, a4, a5⟩ := c
  refine ⟨?_, rfl, rfl, rfl, rfl, loopSum_value⟩
  show loopSum 1000000 % 1000 = 0
  rw [loopSum_value]
  decide

/-- The component state of AsyncCdComponent
(src/app/cd-examples/async-cd/async-cd.component.ts, fields at lines
18-22).  intervalId holds the numeric id of the active interval, or none
for the null initial value. -/
structure AsyncCdComponent where
  setTimeoutCounter : Int
  setIntervalCounter : Int
  promiseCounter : Int
  asyncCounter : Int
  intervalId : Option Int
deriving DecidableEq, Repr

/-- The host-layer timer calls startSetInterval can issue. -/
inductive TimerAction where
  | clearIntervalCall (id : Int)
  | setIntervalCall (id : Int)
deriving DecidableEq, Repr

/-- startSetInterval (lines 33-44).  The guard is the JS truthiness test
if (this.intervalId): null and the number 0 are falsy, any other number is
truthy.  When an interval is active the call clears it and nulls the
field; otherwise it starts a new interval whose host-assigned id is
freshId and stores that id.  The interval callback itself (incrementing
setIntervalCounter later) is asynchronous and not part of this call. -/
def startSetInterval (c : AsyncCdComponent) (freshId : Int) :
    AsyncCdComponent × List TimerAction :=
  match c.intervalId with
  | some id =>
    if id ≠ 0 then ({ c with intervalId := none }, [.clearIntervalCall id])
    else ({ c with intervalId := some freshId }, [.setIntervalCall freshId])
  | none => ({ c with intervalId := some freshId }, [.setIntervalCall freshId])

/-- C10: startSetInterval is a toggle.  When an interval is active
(intervalId holds the nonzero id the host setInterval returned), the call
clears exactly that interval, nulls intervalId, starts nothing, and
leaves all four counters untouched; when intervalId is null it starts one
new interval and stores its id.  The counters are in fact untouched in
every case. -/
theorem c10_start_set_interval_toggle (c : AsyncCdComponent) (freshId : Int) :
    (∀ id : Int, c.intervalId = some id → id ≠ 0 →
      startSetInterval c freshId =
        ({ c with intervalId := none }, [TimerAction.clearIntervalCall id])) ∧
    (c.intervalId = none →
      startSetInterval c freshId =
        ({ c with intervalId := some freshId }, [TimerAction.setIntervalCall freshId])) ∧
    (startSetInterval c freshId).1.setTimeoutCounter = c.setTimeoutCounter ∧
    (startSetInterval c freshId).1.setIntervalCounter = c.setIntervalCounter ∧
    (startSetInterval c freshId).1.promiseCounter = c.promiseCounter ∧
    (startSetInterval c freshId).1.asyncCounter = c.asyncCounter := by
  refine ⟨?_, ?_, ?_, ?_, ?_, ?_⟩
  · intro id hid hne
    simp [startSetInterval, hid, hne]
  · intro hid
    simp [startSetInterval, hid]
  all_goals
    unfold startSetInterval
    cases c.intervalId with
    | none => rfl
    | some id =>
      simp only []
      split <;> rfl

/-- C10 witness: toggling off an active interval with id 7. -/
theorem c10_start_set_interval_toggle_w :
    startSetInterval ⟨1, 2, 3, 4, some 7⟩ 9 =
      (⟨1, 2, 3, 4, none⟩, [TimerAction.clearIntervalCall 7]) :=
  (c10_start_set_interval_toggle ⟨1, 2, 3, 4, some 7⟩ 9).1 7 rfl (by decide)

end DemoComponents
